import Mathlib

/-!
Verification of the ArchiveFetcher repository's hierarchical aggregation,
persistence and rendering core (`rusarchives_fetcher/cfc_rusarchives.py`,
`rusarchives_fetcher/utils.py`, `rusarchives_fetcher/temples.py`).

Modelling conventions:
* Python strings are modelled as `List Char` (`Str`); Python string
  comparison is code-point lexicographic, matching the `LinearOrder`
  on `List Char`.
* Python `dict`s are modelled as insertion-ordered association lists
  (`List (κ × α)`); `dict` lookup/insert/update keep the position of an
  existing key and append new keys at the end, which `alookup`/`aset`
  mirror.
* Fallible code (exceptions) is modelled with `Option`/`Except`.
* `re` patterns are translated into explicit prefix matchers that follow
  Python's leftmost/first-alternative backtracking semantics; the `\d`
  class is modelled as the ASCII digits (the identifiers this program
  feeds to it are ASCII digit runs).
-/

set_option maxRecDepth 8192

abbrev Str := List Char

/-- Python dict lookup `d[k]` / `k in d` (first, hence unique, binding). -/
def alookup [DecidableEq κ] (k : κ) : List (κ × α) → Option α
  | [] => none
  | (k', v) :: rest => if k' = k then some v else alookup k rest

/-- Python dict update `d[k] = v`: replace in place, or append a new key. -/
def aset [DecidableEq κ] (k : κ) (v : α) : List (κ × α) → List (κ × α)
  | [] => [(k, v)]
  | (k', v') :: rest => if k' = k then (k', v) :: rest else (k', v') :: aset k v rest

/-- Python dict `d.pop(k)`: remove the binding of `k` (if present). -/
def apop [DecidableEq κ] (k : κ) : List (κ × α) → List (κ × α)
  | [] => []
  | (k', v') :: rest => if k' = k then rest else (k', v') :: apop k rest

def amem [DecidableEq κ] (k : κ) (l : List (κ × α)) : Prop := (alookup k l).isSome

instance [DecidableEq κ] (k : κ) (l : List (κ × α)) : Decidable (amem k l) := by
  unfold amem; infer_instance

/-! ## utils.py: number/string helpers -/

/-- `utils.get_number_str`: string of a number, or empty for `None`. -/
def get_number_str (x : Option Int) : Str :=
  match x with
  | none => []
  | some n => (toString n).data

/-- Python truthiness of an optional string: `None` and `''` are falsy. -/
def truthyOptStr (s : Option Str) : Bool :=
  match s with
  | none => false
  | some s => !s.isEmpty

/-- `utils.get_str_str`: `None` on empty or special strings. -/
def get_str_str (s : Str) : Option Str :=
  if s = [] then none
  else if s = "null".data then none
  else if s = "#VALUE!".data then none
  else some s

def isDigitC (c : Char) : Bool := c.isDigit

/-- Python `int` on a (nonempty) digit run. -/
def digitsToNat (s : Str) : Nat :=
  s.foldl (fun a c => a * 10 + (c.toNat - '0'.toNat)) 0

/-- `utils.get_number_keys`: split a raw identifier into the composite
sort key `(leading digits as int or -1/0, middle text, trailing digits
or -1/0)` exactly as the source does.  The regex
`(\d*)([^\d]*)(\d*)` always matches a prefix: `part0` is the maximal
leading digit run, `part1` the following maximal non-digit run, `part2`
the next maximal digit run (the `if not regex_result` branch of the
source is unreachable).  Note that when `part0` is empty the source
returns `(0, s, 0)` with the whole original string. -/
def get_number_keys (s : Option Str) : Int × Str × Int :=
  match s with
  | none => (-1, [], -1)
  | some s =>
    if s = [] then (-1, [], -1)
    else
      let part0 := s.takeWhile isDigitC
      let rest0 := s.dropWhile isDigitC
      let part1 := rest0.takeWhile (fun c => !isDigitC c)
      let rest1 := rest0.dropWhile (fun c => !isDigitC c)
      let part2 := rest1.takeWhile isDigitC
      if part0 ≠ [] then
        if part2 ≠ [] then ((digitsToNat part0 : Int), part1, (digitsToNat part2 : Int))
        else ((digitsToNat part0 : Int), part1, -1)
      else (0, s, 0)

/-- Python comparison of the `(int, str, int)` key tuples: lexicographic
componentwise, with code-point comparison on the string. -/
def keyLe (a b : Int × Str × Int) : Prop :=
  toLex (a.1, toLex (a.2.1, a.2.2)) ≤ toLex (b.1, toLex (b.2.1, b.2.2))

def keyLt (a b : Int × Str × Int) : Prop :=
  toLex (a.1, toLex (a.2.1, a.2.2)) < toLex (b.1, toLex (b.2.1, b.2.2))

instance (a b : Int × Str × Int) : Decidable (keyLe a b) := by
  unfold keyLe; infer_instance

instance (a b : Int × Str × Int) : Decidable (keyLt a b) := by
  unfold keyLt; infer_instance

theorem keyLe_trans {a b c : Int × Str × Int} (h₁ : keyLe a b) (h₂ : keyLe b c) :
    keyLe a c := le_trans h₁ h₂

theorem keyLe_total (a b : Int × Str × Int) : keyLe a b ∨ keyLe b a :=
  le_total _ _

theorem keyLe_antisymm {a b : Int × Str × Int} (h₁ : keyLe a b) (h₂ : keyLe b a) :
    a = b := by
  have h := le_antisymm h₁ h₂
  have h' := congrArg (fun x : Lex (Int × Lex (Str × Int)) => ((ofLex x).1, ofLex (ofLex x).2))
    h
  simp only at h'
  obtain ⟨a₁, a₂, a₃⟩ := a
  obtain ⟨b₁, b₂, b₃⟩ := b
  simpa using h'

theorem keyLe_refl (a : Int × Str × Int) : keyLe a a := le_refl _

/-- Sanity: the key of a null/empty identifier. -/
theorem get_number_keys_none : get_number_keys none = (-1, [], -1) := rfl

/-- The key of `None`/empty is strictly below the key of any nonempty string. -/
theorem get_number_keys_none_lt (s : Str) (hs : s ≠ []) :
    keyLt (get_number_keys none) (get_number_keys (some s)) := by
  unfold get_number_keys keyLt
  simp only [if_neg hs]
  by_cases h0 : s.takeWhile isDigitC ≠ []
  · by_cases h2 : ((s.dropWhile isDigitC).dropWhile (fun c => !isDigitC c)).takeWhile isDigitC ≠ []
    · simp only [if_pos h0, if_pos h2]
      exact Prod.Lex.left _ _ (by omega)
    · simp only [if_pos h0, if_neg h2]
      exact Prod.Lex.left _ _ (by omega)
  · simp only [if_neg h0]
    exact Prod.Lex.left _ _ (by omega)

/-! ## Python text primitives (whitespace, case, replace) -/

/-- Python whitespace (the characters `str.strip`/`\s` handle in the
ASCII range; the scraped data contains no exotic Unicode spaces). -/
def isSpaceC (c : Char) : Bool :=
  c = ' ' ∨ c = '\t' ∨ c = '\n' ∨ c = '\r' ∨ c = Char.ofNat 11 ∨ c = Char.ofNat 12

/-- Python `str.strip()`. -/
def pyStrip (s : Str) : Str :=
  ((s.dropWhile isSpaceC).reverse.dropWhile isSpaceC).reverse

/-- `re.sub(r'\s{2,}', ' ', s)`: collapse every run of two or more
whitespace characters into a single space (runs of one are kept as-is).
Structural fuel recursion (`fuel ≥ length` always suffices) so the
kernel can evaluate it. -/
def collapse_ws_go : Nat → Str → Str
  | 0, s => s
  | _fuel+1, [] => []
  | fuel+1, c :: rest =>
    if isSpaceC c then
      if (rest.takeWhile isSpaceC).isEmpty then c :: collapse_ws_go fuel rest
      else ' ' :: collapse_ws_go fuel (rest.dropWhile isSpaceC)
    else c :: collapse_ws_go fuel rest

/-- `utils.strip_advanced`: newlines to spaces, collapse whitespace runs. -/
def strip_advanced (s : Str) : Str :=
  let s' := s.map (fun c => if c = '\n' then ' ' else c)
  collapse_ws_go s'.length s'

/-- Python `str.replace(pat, rep)` (leftmost, non-overlapping), for a
nonempty pattern, by fuel recursion. -/
def replaceAll_go : Nat → Str → Str → Str → Str
  | 0, _, _, s => s
  | fuel+1, pat, rep, s =>
    match s with
    | [] => []
    | c :: rest =>
      if pat.isPrefixOf s then rep ++ replaceAll_go fuel pat rep (s.drop pat.length)
      else c :: replaceAll_go fuel pat rep rest

def replaceAll (pat rep s : Str) : Str := replaceAll_go s.length pat rep s

/-- Python `str.lower()` on the alphabets this program touches
(ASCII and Russian Cyrillic, including Ё). -/
def lowerRu (c : Char) : Char :=
  if 65 ≤ c.toNat ∧ c.toNat ≤ 90 then Char.ofNat (c.toNat + 32)
  else if 1040 ≤ c.toNat ∧ c.toNat ≤ 1071 then Char.ofNat (c.toNat + 32)
  else if c.toNat = 1025 then Char.ofNat 1105
  else c

/-- Python `str.upper()` on the same alphabets. -/
def upperRu (c : Char) : Char :=
  if 97 ≤ c.toNat ∧ c.toNat ≤ 122 then Char.ofNat (c.toNat - 32)
  else if 1072 ≤ c.toNat ∧ c.toNat ≤ 1103 then Char.ofNat (c.toNat - 32)
  else if c.toNat = 1105 then Char.ofNat 1025
  else c

/-- Case-insensitive literal prefix test (`re.IGNORECASE`). -/
def foldStartsWith (lit s : Str) : Bool :=
  ((s.take lit.length).map lowerRu) = lit.map lowerRu

/-- The class `[а-я]` under `re.IGNORECASE` (does not include ё/Ё). -/
def clsAYa (c : Char) : Bool :=
  1072 ≤ (lowerRu c).toNat ∧ (lowerRu c).toNat ≤ 1103

/-- The class `[а-я -]` under `re.IGNORECASE`. -/
def clsAYaDash (c : Char) : Bool := clsAYa c ∨ c = ' ' ∨ c = '-'

/-- Greedy/backtracking `cls+` followed by a literal: try run lengths
from the maximal one (passed as the `Nat` argument) down to 1, matching
Python's greedy backtracking.  Returns the total matched length. -/
def tryRunLit (lit s : Str) : Nat → Option Nat
  | 0 => none
  | k+1 => if foldStartsWith lit (s.drop (k+1)) then some ((k+1) + lit.length)
           else tryRunLit lit s k

/-- Match `' ' cls+ lit` at the start of `s` (a region-qualifier clause). -/
def matchSpRunLit (cls : Char → Bool) (lit : Str) (s : Str) : Option Nat :=
  match s with
  | [] => none
  | c :: rest =>
    if c = ' ' then (tryRunLit lit rest (rest.takeWhile cls).length).map (· + 1)
    else none

/-- The ` республик (Карелия|Саха \(Якутия\)|Хакасия)` alternative. -/
def g6rep (s : Str) : Option Nat :=
  if foldStartsWith (" республик ").data s then
    [("Карелия").data, ("Саха (Якутия)").data, ("Хакасия").data].findSome? fun nm =>
      if foldStartsWith nm (s.drop 11) then some (11 + nm.length) else none
  else none

/-- Length matched by the optional region-qualifier group
`(( [а-я]+ области| [а-я -]+ автономного округа – Югры| республик (…))?|)`,
alternatives tried in the pattern's order, empty as fallback. -/
def g6len (s : Str) : Nat :=
  ((matchSpRunLit clsAYa (" области").data s).orElse fun _ =>
    (matchSpRunLit clsAYaDash (" автономного округа – Югры").data s).orElse fun _ =>
      g6rep s).getD 0

/-- Alternatives of the ownership-qualifier group, in the pattern's order. -/
def g2s : List Str :=
  [[], ("государственное ").data, ("государственное областное ").data,
   ("государственное краевое ").data, ("краевое государственное ").data,
   ("муниципальное ").data, ("областное ").data, ("областное государственное ").data,
   ("республиканское ").data, ("республиканское государственное ").data,
   ("федеральное ").data]

/-- Alternatives of the institution-kind group, in the pattern's order
(`(|бюджетное |каз(е|ё)нное |каз(е|ё)нное архивное )`). -/
def g3s : List Str :=
  [[], ("бюджетное ").data, ("казенное ").data, ("казённое ").data,
   ("казенное архивное ").data, ("казённое архивное ").data]

/-- The `…учреждение…` alternative of the anchored boilerplate pattern:
first `(g2, g3)` pair (in Python's backtracking order) whose literals
plus `учреждение` match, then the greedy optional qualifier. -/
def matchBig (s : Str) : Option Nat :=
  (g2s.flatMap (fun g2 => g3s.map (fun g3 => (g2, g3)))).findSome? fun p =>
    if foldStartsWith (p.1 ++ p.2 ++ ("учреждение").data) s then
      let n := p.1.length + p.2.length + 10
      some (n + g6len (s.drop n))
    else none

/-- Length matched at position 0 by the whole anchored prefix regex of
`process_archive_title` (alternation `BIG|ГУ|ГКУ|МКУ`, `re.IGNORECASE`). -/
def matchPref (s : Str) : Option Nat :=
  (matchBig s).orElse fun _ =>
    [("гу").data, ("гку").data, ("мку").data].findSome? fun t =>
      if foldStartsWith t s then some t.length else none

/-- `cfc_rusarchives.process_archive_title`: the fixed rewrite pipeline.
`re.sub(r'(К|к)азеное', r'\1азённое', ·)` is rendered as the two
case-variant literal replacements (the patterns cannot overlap and the
replacements cannot create new matches), `re.sub(r'област$', 'области', ·)`
as a suffix test, and the big anchored prefix deletion via `matchPref`. -/
def process_archive_title (title : Str) : Str :=
  let t1 := pyStrip (strip_advanced title)
  let t2 := t1.map (fun c => if c = '«' ∨ c = '»' then Char.ofNat 34 else c)
  let t3 := replaceAll ("администраци").data ("Администраци").data t2
  let t4 := replaceAll ("учереждение").data ("учреждение").data t3
  let t5 := replaceAll ("Казеное").data ("Казённое").data
            (replaceAll ("казеное").data ("казённое").data t4)
  let t6 := replaceAll ("Казенное").data ("Казённое").data
            (replaceAll ("казенное").data ("казённое").data t5)
  let t7 := if ("област").data.isSuffixOf t6
            then t6.take (t6.length - 6) ++ ("области").data else t6
  let t8 := match matchPref t7 with
            | some n => t7.drop n
            | none => t7
  pyStrip (t8.filter (fun c => c ≠ Char.ofNat 34))

/-- `cfc_rusarchives.process_annotation` (named `process_annot` here):
`None`/`''` give `None`; otherwise the input is stripped and its first
character uppercased.  The emptiness test happens BEFORE stripping, so a
nonempty all-whitespace input reaches `annotation[0]` on an empty string:
an uncaught `IndexError`, modelled as `Except.error`. -/
def process_annot (a : Option Str) : Except Unit (Option Str) :=
  match a with
  | none => Except.ok none
  | some s =>
    if s.isEmpty then Except.ok none
    else
      match pyStrip s with
      | [] => Except.error ()
      | c :: rest => Except.ok (some (upperRu c :: rest))

/-! ## Claims C4, C5, C7 -/

/-- The induced comparison on raw identifier strings. -/
def rawLe (a b : Option Str) : Prop :=
  keyLe (get_number_keys a) (get_number_keys b)

instance (a b : Option Str) : Decidable (rawLe a b) := by
  unfold rawLe; infer_instance

theorem rawLe_trans (a b c : Option Str) (h₁ : rawLe a b) (h₂ : rawLe b c) :
    rawLe a c := keyLe_trans h₁ h₂

theorem rawLe_total (a b : Option Str) : rawLe a b ∨ rawLe b a := keyLe_total _ _

def c4s1 : Str := ("01").data

def c4s2 : Str := ("1").data

/-- C4 (counterexample): `get_number_keys` identifies the distinct raw
identifiers `"01"` and `"1"` (both map to `(1, "", -1)`), so the
comparison induced on raw identifier strings is NOT antisymmetric: the
claimed componentwise comparison is not a total order on raw strings. -/
theorem claim_C4_counterexample :
    get_number_keys (some c4s1) = get_number_keys (some c4s2) ∧ c4s1 ≠ c4s2 := by
  constructor
  · decide
  · decide

/-- C4 (amended): `get_number_keys` is a pure total function; the
componentwise comparison of its output tuples is a total preorder on raw
identifier strings (transitive and total, but not antisymmetric on raw
strings — see the counterexample), is antisymmetric as an order on the
key tuples themselves, and the null/empty identifier is mapped to the
key `(-1, "", -1)`, which sorts strictly before the key of every
nonempty string. -/
theorem claim_C4_amended :
    (∀ a b c : Option Str, rawLe a b → rawLe b c → rawLe a c) ∧
    (∀ a b : Option Str, rawLe a b ∨ rawLe b a) ∧
    (∀ k₁ k₂ : Int × Str × Int, keyLe k₁ k₂ → keyLe k₂ k₁ → k₁ = k₂) ∧
    (get_number_keys none = get_number_keys (some []) ∧
      get_number_keys none = (-1, [], -1)) ∧
    (∀ s : Str, s ≠ [] → keyLt (get_number_keys none) (get_number_keys (some s))) := by
  refine ⟨rawLe_trans, rawLe_total, fun _ _ => keyLe_antisymm, ⟨rfl, rfl⟩, ?_⟩
  exact get_number_keys_none_lt

/-- C4 (witness): the amended claim instantiated at concrete inputs. -/
theorem claim_C4_witness :
    rawLe (some (('1' :: []) : Str)) (some (('2' :: []) : Str)) ∧
    keyLt (get_number_keys none) (get_number_keys (some (('7' :: []) : Str))) := by
  constructor
  · rcases claim_C4_amended.2.1 (some (('1' :: []) : Str)) (some (('2' :: []) : Str)) with h | h
    · exact h
    · exact absurd h (by decide)
  · exact claim_C4_amended.2.2.2.2 (('7' :: []) : Str) (by decide)

def c5input : Str :=
  ("Государственное казенное учреждение Архангельской  области  «Государственный архив Архангельской  област»").data

def c5claimed : Str := ("Государственный архив Архангельской области").data

def c5actual : Str := ("Государственный архив Архангельской област").data

/-- C5 (counterexample): on the claimed input, `process_archive_title`
does NOT return the claimed string "Государственный архив Архангельской
области". -/
theorem claim_C5_counterexample : process_archive_title c5input ≠ c5claimed := by
  decide

/-- C5 (amended): the pipeline strips the boilerplate prefix, collapses
double spaces, normalizes «казенное» to «казённое» and removes the
guillemets, but the trailing-"област" pluralization does NOT apply: the
`'област$'` substitution runs before the quotes are removed, and at that
stage the title still ends with the quote character that replaced `»`,
so the anchored pattern cannot match.  The actual result keeps the
truncated "...Архангельской област". -/
theorem claim_C5_amended : process_archive_title c5input = c5actual := by
  decide

def c7space : Str := (' ' :: [])

/-- C7 (code_bug): `process_annotation` raises `IndexError` on the
nonempty all-whitespace input `" "`: its emptiness test runs before
`strip()`, so the stripped string is empty when `annotation[0]` is
taken, although the claim (and the spec's trim-then-check intent)
requires `None` to be returned without raising. -/
theorem claim_C7_bug :
    process_annot (some c7space) = Except.error () ∧ pyStrip c7space = [] := by
  constructor
  · rfl
  · rfl

/-! ## cfc_rusarchives.py: the hierarchical data model

Python classes become structures.  Parent back-references (used by the
source only to reach ancestor titles/numbers and the shared
`base_directory_path`) are dropped; the base directory lives in the root
`ArchiveList` and ancestor identifiers are passed explicitly where a
method needs them.  The source's `annotation` fields/parameters are
named `annot` here.  Lazy links hold `Option` nodes (`None` = not
materialized).  JSON documents are modelled as `Json` values: the
serialize-then-parse step of `json.dump`/`json.load` round-trips a JSON
value (with `sort_keys=True` affecting only the textual key order), and
`json.dump` renders a `None` dict key as the string key `"null"`, which
is made explicit in the writers below. -/

inductive Json where
  | null : Json
  | str : Str → Json
  | num : Int → Json
  | arr : List Json → Json
  | obj : List (Str × Json) → Json
deriving BEq

structure Item where
  item_number : Option Str
  item_annot : Option Str
  data : Json
  start_year : Option Int
  end_year : Option Int
  url : Option Str

structure FullItem where
  item : Item
  archive_title : Option Str
  fund_number : Option Str
  inventory_number : Option Str
  fund_annot : Option Str
  inventory_annot : Option Str

structure Inventory where
  number : Option Str
  items : List (Option Str × Item)
  annot : Option Str

structure InventoryLink where
  number : Option Str
  loaded_inventory : Option Inventory

structure Fund where
  number : Option Str
  inventories : List (Option Str × InventoryLink)
  annot : Option Str

structure FundLink where
  number : Option Str
  loaded_fund : Option Fund

structure Archive where
  title : Option Str
  funds : List (Option Str × FundLink)

structure ArchiveLink where
  title : Option Str
  loaded_archive : Option Archive

structure ArchiveList where
  base_directory_path : Option (List Str)
  archives : List (Option Str × ArchiveLink)

/-- `Inventory.append`: insert/overwrite the item keyed by its number. -/
def Inventory.append (inv : Inventory) (it : FullItem) : Inventory :=
  { inv with items := aset it.item.item_number it.item inv.items }

/-- `Fund.append`: look up or create the inventory link (created links
are materialized), overwrite its annotation when the incoming one is
truthy, then delegate.  `none` models the unmodelled path where an
existing link is not materialized and the source would touch the file
system (or raise, when no base directory is configured). -/
def Fund.append (f : Fund) (it : FullItem) : Option Fund := do
  let invs0 := if amem it.inventory_number f.inventories then f.inventories
               else aset it.inventory_number
                 ⟨it.inventory_number, some ⟨it.inventory_number, [], it.inventory_annot⟩⟩
                 f.inventories
  let link ← alookup it.inventory_number invs0
  let inv ← link.loaded_inventory
  let inv1 := if truthyOptStr it.inventory_annot
              then { inv with annot := it.inventory_annot } else inv
  let inv2 := inv1.append it
  some { f with inventories := aset it.inventory_number
                  { link with loaded_inventory := some inv2 } invs0 }

/-- `Archive.append`: same pattern one level up (fund annotation). -/
def Archive.append (a : Archive) (it : FullItem) : Option Archive := do
  let funds0 := if amem it.fund_number a.funds then a.funds
                else aset it.fund_number
                  ⟨it.fund_number, some ⟨it.fund_number, [], it.fund_annot⟩⟩
                  a.funds
  let link ← alookup it.fund_number funds0
  let f ← link.loaded_fund
  let f1 := if truthyOptStr it.fund_annot then { f with annot := it.fund_annot } else f
  let f2 ← Fund.append f1 it
  some { a with funds := aset it.fund_number
                  { link with loaded_fund := some f2 } funds0 }

/-- `ArchiveList.append`: look up or create the archive link, delegate. -/
def ArchiveList.append (al : ArchiveList) (it : FullItem) : Option ArchiveList := do
  let archives0 := if amem it.archive_title al.archives then al.archives
                   else aset it.archive_title
                     ⟨it.archive_title, some ⟨it.archive_title, []⟩⟩
                     al.archives
  let link ← alookup it.archive_title archives0
  let a ← link.loaded_archive
  let a2 ← a.append it
  some { al with archives := aset it.archive_title
                   { link with loaded_archive := some a2 } archives0 }

/-- Fold a record sequence into a fund (`Fund.append` per record). -/
def appendAllFund (f : Fund) (rs : List FullItem) : Option Fund :=
  rs.foldlM Fund.append f

/-- Fold a record sequence into an archive (`Archive.append` per record). -/
def appendAllArchive (a : Archive) (rs : List FullItem) : Option Archive :=
  rs.foldlM Archive.append a

/-! Observation accessors used to state frame/annotation properties. -/

def Fund.getInvLink (fd : Fund) (i : Option Str) : Option InventoryLink :=
  alookup i fd.inventories

def Fund.getItem (fd : Fund) (i n : Option Str) : Option Item := do
  let il ← alookup i fd.inventories
  let inv ← il.loaded_inventory
  alookup n inv.items

def Archive.getFundLink (a : Archive) (f : Option Str) : Option FundLink :=
  alookup f a.funds

def Archive.getInvLink (a : Archive) (f i : Option Str) : Option InventoryLink := do
  let fl ← alookup f a.funds
  let fd ← fl.loaded_fund
  fd.getInvLink i

def Archive.getItem (a : Archive) (f i n : Option Str) : Option Item := do
  let fl ← alookup f a.funds
  let fd ← fl.loaded_fund
  fd.getItem i n

def ArchiveList.getArchiveLink (al : ArchiveList) (t : Option Str) : Option ArchiveLink :=
  alookup t al.archives

def ArchiveList.getFundLink (al : ArchiveList) (t f : Option Str) : Option FundLink := do
  let la ← alookup t al.archives
  let a ← la.loaded_archive
  a.getFundLink f

def ArchiveList.getInvLink (al : ArchiveList) (t f i : Option Str) :
    Option InventoryLink := do
  let la ← alookup t al.archives
  let a ← la.loaded_archive
  a.getInvLink f i

def ArchiveList.getItem (al : ArchiveList) (t f i n : Option Str) : Option Item := do
  let la ← alookup t al.archives
  let a ← la.loaded_archive
  a.getItem f i n

/-! Association-list lemmas (Python dict semantics). -/

theorem alookup_aset_self [DecidableEq κ] (k : κ) (v : α) (l : List (κ × α)) :
    alookup k (aset k v l) = some v := by
  induction l with
  | nil => simp [aset, alookup]
  | cons p rest ih =>
    obtain ⟨k', v'⟩ := p
    by_cases h : k' = k
    · simp [aset, alookup, h]
    · simp [aset, alookup, h, ih]

theorem alookup_aset_ne [DecidableEq κ] {k k' : κ} (v : α) (l : List (κ × α))
    (h : k' ≠ k) : alookup k' (aset k v l) = alookup k' l := by
  induction l with
  | nil => simp [aset, alookup, Ne.symm h]
  | cons p rest ih =>
    obtain ⟨k₀, v₀⟩ := p
    by_cases h₀ : k₀ = k
    · subst h₀
      simp [aset, alookup, Ne.symm h]
    · by_cases h₁ : k₀ = k'
      · simp [aset, alookup, h₀, h₁, h]
      · simp [aset, alookup, h₀, h₁, ih]

theorem alookup_eq_none_of_not_amem [DecidableEq κ] {k : κ} {l : List (κ × α)}
    (h : ¬ amem k l) : alookup k l = none := by
  unfold amem at h
  cases hl : alookup k l with
  | none => rfl
  | some v => rw [hl] at h; simp at h

theorem alookup_mem [DecidableEq κ] {k : κ} {v : α} {l : List (κ × α)}
    (h : alookup k l = some v) : ∃ k', (k', v) ∈ l := by
  induction l with
  | nil => simp [alookup] at h
  | cons p rest ih =>
    obtain ⟨k₀, v₀⟩ := p
    by_cases h₀ : k₀ = k
    · simp [alookup, h₀] at h
      exact ⟨k₀, by simp [h]⟩
    · simp [alookup, h₀] at h
      obtain ⟨k', hk'⟩ := ih h
      exact ⟨k', by simp [hk']⟩

theorem mem_aset [DecidableEq κ] {k : κ} {v : α} {l : List (κ × α)} {p : κ × α}
    (h : p ∈ aset k v l) : p.2 = v ∨ p ∈ l := by
  induction l with
  | nil => simp [aset] at h; simp [h]
  | cons q rest ih =>
    obtain ⟨k₀, v₀⟩ := q
    by_cases h₀ : k₀ = k
    · simp [aset, h₀] at h
      rcases h with h | h
      · simp [h]
      · exact Or.inr (by simp [h])
    · simp [aset, h₀] at h
      rcases h with h | h
      · exact Or.inr (by simp [h])
      · rcases ih h with h' | h'
        · exact Or.inl h'
        · exact Or.inr (by simp [h'])

/-! ## Claim C3: last non-empty annotation wins -/

/-- The "last write wins with truthiness guard" accumulator used by the
append chain on fund/inventory annotations. -/
def annotUpd (acc a : Option Str) : Option Str :=
  if truthyOptStr a then a else acc

/-- The last annotation in the list that is neither null nor empty. -/
def lastTruthy (l : List (Option Str)) : Option (Option Str) :=
  l.reverse.find? truthyOptStr

theorem lastTruthy_foldl (a0 : Option Str) (l : List (Option Str)) :
    (lastTruthy (a0 :: l)).getD a0 = l.foldl annotUpd a0 := by
  induction l using List.reverseRecOn with
  | nil =>
    unfold lastTruthy
    by_cases h : truthyOptStr a0 = true <;> simp [h]
  | append_singleton l x ih =>
    unfold lastTruthy at ih ⊢
    by_cases h : truthyOptStr x = true
    · simp [List.reverse_cons, List.find?_append, List.find?, h, annotUpd]
    · simp only [List.foldl_append, List.foldl_cons, List.foldl_nil]
      have : (a0 :: (l ++ [x])).reverse = x :: (a0 :: l).reverse := by
        simp [List.reverse_cons]
      rw [this]
      simp only [List.find?, h, annotUpd]
      rw [ih]
      simp [h]

/-- The annotation of the (materialized) inventory at key `k` of a fund. -/
def fundAnnotAt (f : Fund) (k : Option Str) : Option (Option Str) :=
  ((alookup k f.inventories).bind InventoryLink.loaded_inventory).map Inventory.annot

/-- The annotation of the (materialized) fund at key `k` of an archive. -/
def archAnnotAt (a : Archive) (k : Option Str) : Option (Option Str) :=
  ((alookup k a.funds).bind FundLink.loaded_fund).map Fund.annot

theorem fund_append_annot_create {f : Fund} {k : Option Str} {r : FullItem}
    (hmem : ¬ amem k f.inventories) (hk : r.inventory_number = k) :
    ∃ f', Fund.append f r = some f' ∧ fundAnnotAt f' k = some r.inventory_annot := by
  simp only [Fund.append, hk, if_neg hmem, alookup_aset_self, Option.bind_some,
    Option.bind_eq_bind, Option.some_bind]
  refine ⟨_, rfl, ?_⟩
  unfold fundAnnotAt
  rw [alookup_aset_self]
  by_cases h : truthyOptStr r.inventory_annot = true <;>
    simp [h, Inventory.append]

theorem fund_append_annot_step {f : Fund} {k : Option Str} {a : Option Str}
    {r : FullItem} (hk : r.inventory_number = k) (ha : fundAnnotAt f k = some a) :
    ∃ f', Fund.append f r = some f' ∧
      fundAnnotAt f' k = some (annotUpd a r.inventory_annot) := by
  unfold fundAnnotAt at ha
  cases hl : alookup k f.inventories with
  | none => rw [hl] at ha; simp at ha
  | some link =>
    rw [hl] at ha
    cases hinv : link.loaded_inventory with
    | none => simp [hinv] at ha
    | some inv =>
      simp [hinv] at ha
      have hmem : amem k f.inventories := by unfold amem; rw [hl]; rfl
      simp only [Fund.append, hk, if_pos hmem, hl, hinv, Option.bind_some,
        Option.bind_eq_bind, Option.some_bind]
      refine ⟨_, rfl, ?_⟩
      unfold fundAnnotAt
      rw [alookup_aset_self]
      by_cases h : truthyOptStr r.inventory_annot = true <;>
        simp [h, Inventory.append, annotUpd, ha]

theorem fund_append_annot_fold {k : Option Str} (rs : List FullItem) :
    ∀ (f : Fund) (a : Option Str), fundAnnotAt f k = some a →
    (∀ r ∈ rs, r.inventory_number = k) →
    ∃ f', appendAllFund f rs = some f' ∧
      fundAnnotAt f' k = some (rs.foldl (fun acc r => annotUpd acc r.inventory_annot) a) := by
  induction rs with
  | nil => intro f a ha _; exact ⟨f, rfl, by simp [ha]⟩
  | cons r rest ih =>
    intro f a ha hks
    obtain ⟨f₁, h₁, ha₁⟩ := fund_append_annot_step (hks r (by simp)) ha
    obtain ⟨f', h', ha'⟩ := ih f₁ _ ha₁ (fun r hr => hks r (by simp [hr]))
    refine ⟨f', ?_, ha'⟩
    unfold appendAllFund at h' ⊢
    simp [List.foldlM_cons, h₁, h']

/-- All inventory links of a fund are materialized (true for every fund
built purely by appends, and after `fetch_all`). -/
def Fund.allLoaded (fd : Fund) : Prop :=
  ∀ p ∈ fd.inventories, (InventoryLink.loaded_inventory p.2).isSome

theorem fund_append_total {fd : Fund} (r : FullItem) (hall : Fund.allLoaded fd) :
    ∃ fd', Fund.append fd r = some fd' ∧ Fund.allLoaded fd' ∧
      fd'.annot = fd.annot ∧ fd'.number = fd.number := by
  by_cases hmem : amem r.inventory_number fd.inventories
  · have hsome : (alookup r.inventory_number fd.inventories).isSome := hmem
    cases hl : alookup r.inventory_number fd.inventories with
    | none => rw [hl] at hsome; simp at hsome
    | some link =>
      have hlink : (link.loaded_inventory).isSome := by
        obtain ⟨k', hk'⟩ := alookup_mem hl
        exact hall (k', link) hk'
      cases hinv : link.loaded_inventory with
      | none => rw [hinv] at hlink; simp at hlink
      | some inv =>
        simp only [Fund.append, if_pos hmem, hl, hinv, Option.bind_eq_bind,
          Option.some_bind]
        refine ⟨_, rfl, ?_, rfl, rfl⟩
        intro p hp
        rcases mem_aset hp with h | h
        · simp [h]
        · exact hall p h
  · simp only [Fund.append, if_neg hmem, alookup_aset_self, Option.bind_eq_bind,
      Option.some_bind]
    refine ⟨_, rfl, ?_, rfl, rfl⟩
    intro p hp
    rcases mem_aset hp with h | h
    · simp [h]
    · rcases mem_aset h with h' | h'
      · simp [h']
      · exact hall p h'

/-- Fold-invariant at archive level: the fund at key `k` is present,
materialized, has all its inventory links materialized, and carries the
annotation `v`. -/
def archInv (a : Archive) (k : Option Str) (v : Option Str) : Prop :=
  ∃ fl fd, alookup k a.funds = some fl ∧ fl.loaded_fund = some fd ∧
    Fund.allLoaded fd ∧ fd.annot = v

theorem archInv_annot {a : Archive} {k v : Option Str} (h : archInv a k v) :
    archAnnotAt a k = some v := by
  obtain ⟨fl, fd, hl, hld, _, hann⟩ := h
  unfold archAnnotAt
  rw [hl]
  simp [hld, hann]

theorem ite_fund_inventories (c : Prop) [Decidable c] (fd : Fund) (x : Option Str) :
    (if c then { fd with annot := x } else fd).inventories = fd.inventories := by
  by_cases h : c <;> simp [h]

theorem archive_append_annot_create {a : Archive} {k : Option Str} {r : FullItem}
    (hmem : ¬ amem k a.funds) (hk : r.fund_number = k) :
    ∃ a', Archive.append a r = some a' ∧ archInv a' k r.fund_annot := by
  have hall0 : Fund.allLoaded
      (if truthyOptStr r.fund_annot
        then { (⟨k, [], r.fund_annot⟩ : Fund) with annot := r.fund_annot }
        else (⟨k, [], r.fund_annot⟩ : Fund)) := by
    intro p hp
    by_cases h : truthyOptStr r.fund_annot = true <;> simp [h] at hp
  obtain ⟨fd', hfd', hall', hann', _⟩ := fund_append_total r hall0
  simp only [Archive.append, hk, if_neg hmem, alookup_aset_self,
    Option.bind_eq_bind, Option.some_bind, hfd']
  refine ⟨_, rfl, ?_⟩
  refine ⟨_, fd', alookup_aset_self _ _ _, rfl, hall', ?_⟩
  rw [hann']
  by_cases h : truthyOptStr r.fund_annot = true <;> simp [h]

theorem archive_append_annot_step {a : Archive} {k v : Option Str} {r : FullItem}
    (hk : r.fund_number = k) (hinv : archInv a k v) :
    ∃ a', Archive.append a r = some a' ∧ archInv a' k (annotUpd v r.fund_annot) := by
  obtain ⟨fl, fd, hl, hld, hall, hann⟩ := hinv
  have hmem : amem k a.funds := by unfold amem; rw [hl]; rfl
  have hallf1 : Fund.allLoaded
      (if truthyOptStr r.fund_annot then { fd with annot := r.fund_annot } else fd) := by
    intro p hp
    apply hall
    rw [← ite_fund_inventories (truthyOptStr r.fund_annot = true) fd r.fund_annot]
    exact hp
  obtain ⟨fd2, hfd2, hall2, hann2, _⟩ := fund_append_total r hallf1
  simp only [Archive.append, hk, if_pos hmem, hl, hld, Option.bind_eq_bind,
    Option.some_bind, hfd2]
  refine ⟨_, rfl, ?_⟩
  refine ⟨_, fd2, alookup_aset_self _ _ _, rfl, hall2, ?_⟩
  rw [hann2]
  by_cases h : truthyOptStr r.fund_annot = true <;> simp [h, annotUpd, hann]

theorem archive_append_annot_fold {k : Option Str} (rs : List FullItem) :
    ∀ (a : Archive) (v : Option Str), archInv a k v →
    (∀ r ∈ rs, r.fund_number = k) →
    ∃ a', appendAllArchive a rs = some a' ∧
      archInv a' k (rs.foldl (fun acc r => annotUpd acc r.fund_annot) v) := by
  induction rs with
  | nil => intro a v hv _; exact ⟨a, rfl, by simpa using hv⟩
  | cons r rest ih =>
    intro a v hv hks
    obtain ⟨a₁, h₁, hv₁⟩ := archive_append_annot_step (hks r (by simp)) hv
    obtain ⟨a', h', hv'⟩ := ih a₁ _ hv₁ (fun r hr => hks r (by simp [hr]))
    refine ⟨a', ?_, hv'⟩
    unfold appendAllArchive at h' ⊢
    simp [List.foldlM_cons, h₁, h']

/-- C3: for records appended into the same fund (resp. the same
archive's fund entry), the inventory (resp. fund) annotation after all
appends is the last non-null non-empty annotation supplied by any
record, or the first record's annotation when no record supplies one;
records with null/empty annotations leave the stored annotation
unchanged. -/
theorem claim_C3 :
    (∀ (f : Fund) (k : Option Str) (r0 : FullItem) (rs : List FullItem),
      ¬ amem k f.inventories → r0.inventory_number = k →
      (∀ r ∈ rs, r.inventory_number = k) →
      ∃ f', appendAllFund f (r0 :: rs) = some f' ∧
        fundAnnotAt f' k =
          some ((lastTruthy ((r0 :: rs).map FullItem.inventory_annot)).getD
            r0.inventory_annot)) ∧
    (∀ (a : Archive) (k : Option Str) (r0 : FullItem) (rs : List FullItem),
      ¬ amem k a.funds → r0.fund_number = k →
      (∀ r ∈ rs, r.fund_number = k) →
      ∃ a', appendAllArchive a (r0 :: rs) = some a' ∧
        archAnnotAt a' k =
          some ((lastTruthy ((r0 :: rs).map FullItem.fund_annot)).getD
            r0.fund_annot)) := by
  constructor
  · intro f k r0 rs hmem hk0 hks
    obtain ⟨f₁, h₁, ha₁⟩ := fund_append_annot_create hmem hk0
    obtain ⟨f', h', ha'⟩ := fund_append_annot_fold rs f₁ _ ha₁ hks
    refine ⟨f', ?_, ?_⟩
    · unfold appendAllFund at h' ⊢
      simp [List.foldlM_cons, h₁, h']
    · rw [ha', List.map_cons, lastTruthy_foldl, List.foldl_map]
  · intro a k r0 rs hmem hk0 hks
    obtain ⟨a₁, h₁, ha₁⟩ := archive_append_annot_create hmem hk0
    obtain ⟨a', h', ha'⟩ := archive_append_annot_fold rs a₁ _ ha₁ hks
    refine ⟨a', ?_, ?_⟩
    · unfold appendAllArchive at h' ⊢
      simp [List.foldlM_cons, h₁, h']
    · rw [archInv_annot ha', List.map_cons, lastTruthy_foldl, List.foldl_map]

def c3item0 : FullItem :=
  ⟨⟨some ('3' :: []), none, Json.null, none, none, none⟩,
   some ('T' :: []), some ('1' :: []), some ('2' :: []), none, none⟩

def c3item1 : FullItem :=
  ⟨⟨some ('4' :: []), none, Json.null, none, none, none⟩,
   some ('T' :: []), some ('1' :: []), some ('2' :: []),
   some ('B' :: []), some ('A' :: [])⟩

def c3fund : Fund := ⟨some ('1' :: []), [], none⟩

/-- C3 (witness): the fund-level statement instantiated at a concrete
empty fund and two concrete records. -/
theorem claim_C3_witness :
    ∃ f', appendAllFund c3fund [c3item0, c3item1] = some f' ∧
      fundAnnotAt f' (some ('2' :: [])) =
        some ((lastTruthy ([c3item0, c3item1].map FullItem.inventory_annot)).getD
          c3item0.inventory_annot) :=
  claim_C3.1 c3fund (some ('2' :: [])) c3item0 [c3item1]
    (by decide) (by decide) (by decide)

/-! ## Claim C10: append touches only the addressed path -/

/-- The inventories map that `Fund.append` operates on after its
create-if-missing step. -/
def fundInvs0 (fd : Fund) (r : FullItem) : List (Option Str × InventoryLink) :=
  if amem r.inventory_number fd.inventories then fd.inventories
  else aset r.inventory_number
    ⟨r.inventory_number, some ⟨r.inventory_number, [], r.inventory_annot⟩⟩
    fd.inventories

/-- The inventory stored at the addressed key after `Fund.append`:
annotation optionally overwritten, then the item inserted. -/
def invAfter (inv : Inventory) (r : FullItem) : Inventory :=
  (if truthyOptStr r.inventory_annot
    then { inv with annot := r.inventory_annot } else inv).append r

theorem fund_append_shape {fd fd2 : Fund} {r : FullItem}
    (h : Fund.append fd r = some fd2) :
    ∃ link inv,
      alookup r.inventory_number (fundInvs0 fd r) = some link ∧
      link.loaded_inventory = some inv ∧
      fd2.number = fd.number ∧ fd2.annot = fd.annot ∧
      fd2.inventories =
        aset r.inventory_number ⟨link.number, some (invAfter inv r)⟩ (fundInvs0 fd r) := by
  unfold Fund.append at h
  rw [show (if amem r.inventory_number fd.inventories then fd.inventories
      else aset r.inventory_number
        ⟨r.inventory_number, some ⟨r.inventory_number, [], r.inventory_annot⟩⟩
        fd.inventories) = fundInvs0 fd r from rfl] at h
  simp only [Option.bind_eq_bind] at h
  cases hl : alookup r.inventory_number (fundInvs0 fd r) with
  | none => rw [hl] at h; simp at h
  | some link =>
    rw [hl] at h
    simp only [Option.some_bind] at h
    cases hinv : link.loaded_inventory with
    | none => rw [hinv] at h; simp at h
    | some inv =>
      rw [hinv] at h
      simp at h
      exact ⟨link, inv, rfl, hinv, by rw [← h], by rw [← h], by rw [← h]; rfl⟩

/-- The funds map that `Archive.append` operates on after its
create-if-missing step. -/
def archFunds0 (a : Archive) (r : FullItem) : List (Option Str × FundLink) :=
  if amem r.fund_number a.funds then a.funds
  else aset r.fund_number
    ⟨r.fund_number, some ⟨r.fund_number, [], r.fund_annot⟩⟩
    a.funds

theorem archive_append_shape {a a2 : Archive} {r : FullItem}
    (h : Archive.append a r = some a2) :
    ∃ link f f2,
      alookup r.fund_number (archFunds0 a r) = some link ∧
      link.loaded_fund = some f ∧
      Fund.append (if truthyOptStr r.fund_annot
        then { f with annot := r.fund_annot } else f) r = some f2 ∧
      a2.title = a.title ∧
      a2.funds = aset r.fund_number ⟨link.number, some f2⟩ (archFunds0 a r) := by
  unfold Archive.append at h
  rw [show (if amem r.fund_number a.funds then a.funds
      else aset r.fund_number
        ⟨r.fund_number, some ⟨r.fund_number, [], r.fund_annot⟩⟩
        a.funds) = archFunds0 a r from rfl] at h
  simp only [Option.bind_eq_bind] at h
  cases hl : alookup r.fund_number (archFunds0 a r) with
  | none => rw [hl] at h; simp at h
  | some link =>
    rw [hl] at h
    simp only [Option.some_bind] at h
    cases hf : link.loaded_fund with
    | none => rw [hf] at h; simp at h
    | some f =>
      rw [hf] at h
      simp only [Option.some_bind] at h
      cases hf2 : Fund.append (if truthyOptStr r.fund_annot
          then { f with annot := r.fund_annot } else f) r with
      | none => rw [hf2] at h; simp at h
      | some f2 =>
        rw [hf2] at h
        simp at h
        exact ⟨link, f, f2, rfl, hf, hf2, by rw [← h], by rw [← h]⟩

/-- The archives map that `ArchiveList.append` operates on after its
create-if-missing step. -/
def alArchives0 (al : ArchiveList) (r : FullItem) : List (Option Str × ArchiveLink) :=
  if amem r.archive_title al.archives then al.archives
  else aset r.archive_title ⟨r.archive_title, some ⟨r.archive_title, []⟩⟩ al.archives

theorem archivelist_append_shape {al al2 : ArchiveList} {r : FullItem}
    (h : ArchiveList.append al r = some al2) :
    ∃ link a a2,
      alookup r.archive_title (alArchives0 al r) = some link ∧
      link.loaded_archive = some a ∧
      Archive.append a r = some a2 ∧
      al2.base_directory_path = al.base_directory_path ∧
      al2.archives = aset r.archive_title ⟨link.title, some a2⟩ (alArchives0 al r) := by
  unfold ArchiveList.append at h
  rw [show (if amem r.archive_title al.archives then al.archives
      else aset r.archive_title ⟨r.archive_title, some ⟨r.archive_title, []⟩⟩
        al.archives) = alArchives0 al r from rfl] at h
  simp only [Option.bind_eq_bind] at h
  cases hl : alookup r.archive_title (alArchives0 al r) with
  | none => rw [hl] at h; simp at h
  | some link =>
    rw [hl] at h
    simp only [Option.some_bind] at h
    cases ha : link.loaded_archive with
    | none => rw [ha] at h; simp at h
    | some a =>
      rw [ha] at h
      simp only [Option.some_bind] at h
      cases ha2 : Archive.append a r with
      | none => rw [ha2] at h; simp at h
      | some a2 =>
        rw [ha2] at h
        simp at h
        exact ⟨link, a, a2, rfl, ha, ha2, by rw [← h], by rw [← h]⟩

theorem alookup_fundInvs0_ne {fd : Fund} {r : FullItem} {i : Option Str}
    (hi : i ≠ r.inventory_number) :
    alookup i (fundInvs0 fd r) = alookup i fd.inventories := by
  unfold fundInvs0
  by_cases hm : amem r.inventory_number fd.inventories
  · rw [if_pos hm]
  · rw [if_neg hm, alookup_aset_ne _ _ hi]

theorem alookup_archFunds0_ne {a : Archive} {r : FullItem} {f : Option Str}
    (hf : f ≠ r.fund_number) :
    alookup f (archFunds0 a r) = alookup f a.funds := by
  unfold archFunds0
  by_cases hm : amem r.fund_number a.funds
  · rw [if_pos hm]
  · rw [if_neg hm, alookup_aset_ne _ _ hf]

theorem alookup_alArchives0_ne {al : ArchiveList} {r : FullItem} {t : Option Str}
    (ht : t ≠ r.archive_title) :
    alookup t (alArchives0 al r) = alookup t al.archives := by
  unfold alArchives0
  by_cases hm : amem r.archive_title al.archives
  · rw [if_pos hm]
  · rw [if_neg hm, alookup_aset_ne _ _ ht]

theorem ite_fund_getInvLink (c : Prop) [Decidable c] (fd : Fund) (x : Option Str)
    (i : Option Str) :
    Fund.getInvLink (if c then { fd with annot := x } else fd) i = Fund.getInvLink fd i := by
  by_cases h : c <;> simp [h, Fund.getInvLink]

theorem ite_fund_getItem (c : Prop) [Decidable c] (fd : Fund) (x : Option Str)
    (i n : Option Str) :
    Fund.getItem (if c then { fd with annot := x } else fd) i n = Fund.getItem fd i n := by
  by_cases h : c <;> simp [h, Fund.getItem]

theorem fund_append_frame {fd fd2 : Fund} {r : FullItem}
    (h : Fund.append fd r = some fd2) :
    (∀ i, i ≠ r.inventory_number → Fund.getInvLink fd2 i = Fund.getInvLink fd i) ∧
    (∀ i n, i ≠ r.inventory_number ∨ n ≠ r.item.item_number →
      Fund.getItem fd2 i n = Fund.getItem fd i n) := by
  obtain ⟨link, inv, hl, hinv, _, _, hinvs⟩ := fund_append_shape h
  constructor
  · intro i hi
    unfold Fund.getInvLink
    rw [hinvs, alookup_aset_ne _ _ hi, alookup_fundInvs0_ne hi]
  · intro i n hin
    by_cases hi : i = r.inventory_number
    · subst hi
      have hn : n ≠ r.item.item_number := by
        rcases hin with h' | h'
        · exact absurd rfl h'
        · exact h'
      unfold Fund.getItem
      rw [hinvs, alookup_aset_self]
      simp only [Option.bind_eq_bind, Option.some_bind]
      by_cases hm : amem r.inventory_number fd.inventories
      · have hl0 : alookup r.inventory_number fd.inventories = some link := by
          have heq : fundInvs0 fd r = fd.inventories := by
            unfold fundInvs0; rw [if_pos hm]
          rw [← heq]; exact hl
        rw [hl0]
        simp only [Option.some_bind, hinv]
        unfold invAfter Inventory.append
        by_cases ht : truthyOptStr r.inventory_annot = true <;>
          simp [ht, alookup_aset_ne _ _ hn]
      · rw [alookup_eq_none_of_not_amem hm]
        have hl' : link =
            ⟨r.inventory_number, some ⟨r.inventory_number, [], r.inventory_annot⟩⟩ := by
          have hx := hl
          unfold fundInvs0 at hx
          rw [if_neg hm, alookup_aset_self] at hx
          exact (Option.some_inj.mp hx).symm
        have hinv' : inv = ⟨r.inventory_number, [], r.inventory_annot⟩ := by
          rw [hl'] at hinv
          exact (Option.some_inj.mp hinv.symm)
        rw [hinv']
        unfold invAfter Inventory.append
        by_cases ht : truthyOptStr r.inventory_annot = true <;>
          simp [ht, aset, alookup, Ne.symm hn]
    · unfold Fund.getItem
      rw [hinvs, alookup_aset_ne _ _ hi, alookup_fundInvs0_ne hi]

theorem archive_append_frame {a a2 : Archive} {r : FullItem}
    (h : Archive.append a r = some a2) :
    (∀ f, f ≠ r.fund_number → Archive.getFundLink a2 f = Archive.getFundLink a f) ∧
    (∀ f i, f ≠ r.fund_number ∨ i ≠ r.inventory_number →
      Archive.getInvLink a2 f i = Archive.getInvLink a f i) ∧
    (∀ f i n, f ≠ r.fund_number ∨ i ≠ r.inventory_number ∨ n ≠ r.item.item_number →
      Archive.getItem a2 f i n = Archive.getItem a f i n) := by
  obtain ⟨link, fd, fd2, hl, hld, hfd2, _, hfunds⟩ := archive_append_shape h
  have hfr := fund_append_frame hfd2
  refine ⟨?_, ?_, ?_⟩
  · intro f hf
    unfold Archive.getFundLink
    rw [hfunds, alookup_aset_ne _ _ hf, alookup_archFunds0_ne hf]
  · intro f i hfi
    by_cases hf : f = r.fund_number
    · subst hf
      have hi : i ≠ r.inventory_number := by
        rcases hfi with h' | h'
        · exact absurd rfl h'
        · exact h'
      unfold Archive.getInvLink
      rw [hfunds, alookup_aset_self]
      simp only [Option.bind_eq_bind, Option.some_bind]
      rw [hfr.1 i hi, ite_fund_getInvLink]
      by_cases hm : amem r.fund_number a.funds
      · have hl0 : alookup r.fund_number a.funds = some link := by
          have heq : archFunds0 a r = a.funds := by
            unfold archFunds0; rw [if_pos hm]
          rw [← heq]; exact hl
        rw [hl0]
        simp only [Option.some_bind, hld]
      · rw [alookup_eq_none_of_not_amem hm]
        have hl' : link = ⟨r.fund_number, some ⟨r.fund_number, [], r.fund_annot⟩⟩ := by
          have hx := hl
          unfold archFunds0 at hx
          rw [if_neg hm, alookup_aset_self] at hx
          exact (Option.some_inj.mp hx).symm
        have hld' : fd = ⟨r.fund_number, [], r.fund_annot⟩ := by
          rw [hl'] at hld
          exact (Option.some_inj.mp hld.symm)
        rw [hld']
        simp [Fund.getInvLink, alookup]
    · unfold Archive.getInvLink
      rw [hfunds, alookup_aset_ne _ _ hf, alookup_archFunds0_ne hf]
  · intro f i n hfin
    by_cases hf : f = r.fund_number
    · subst hf
      have hin : i ≠ r.inventory_number ∨ n ≠ r.item.item_number := by
        rcases hfin with h' | h'
        · exact absurd rfl h'
        · exact h'
      unfold Archive.getItem
      rw [hfunds, alookup_aset_self]
      simp only [Option.bind_eq_bind, Option.some_bind]
      rw [hfr.2 i n hin, ite_fund_getItem]
      by_cases hm : amem r.fund_number a.funds
      · have hl0 : alookup r.fund_number a.funds = some link := by
          have heq : archFunds0 a r = a.funds := by
            unfold archFunds0; rw [if_pos hm]
          rw [← heq]; exact hl
        rw [hl0]
        simp only [Option.some_bind, hld]
      · rw [alookup_eq_none_of_not_amem hm]
        have hl' : link = ⟨r.fund_number, some ⟨r.fund_number, [], r.fund_annot⟩⟩ := by
          have hx := hl
          unfold archFunds0 at hx
          rw [if_neg hm, alookup_aset_self] at hx
          exact (Option.some_inj.mp hx).symm
        have hld' : fd = ⟨r.fund_number, [], r.fund_annot⟩ := by
          rw [hl'] at hld
          exact (Option.some_inj.mp hld.symm)
        rw [hld']
        simp [Fund.getItem, alookup]
    · unfold Archive.getItem
      rw [hfunds, alookup_aset_ne _ _ hf, alookup_archFunds0_ne hf]

/-- C10: `ArchiveList.append` modifies at most the archive, fund,
inventory and item addressed by the record's keys: the archive link at
every other title, the fund link at every other (title, fund) pair, the
inventory link at every other (title, fund, inventory) triple and the
item at every other (title, fund, inventory, item) quadruple — each
carrying its annotation and all of its descendants — are unchanged. -/
theorem claim_C10 (al al2 : ArchiveList) (r : FullItem)
    (h : ArchiveList.append al r = some al2) :
    (∀ t, t ≠ r.archive_title →
      ArchiveList.getArchiveLink al2 t = ArchiveList.getArchiveLink al t) ∧
    (∀ t f, t ≠ r.archive_title ∨ f ≠ r.fund_number →
      ArchiveList.getFundLink al2 t f = ArchiveList.getFundLink al t f) ∧
    (∀ t f i, t ≠ r.archive_title ∨ f ≠ r.fund_number ∨ i ≠ r.inventory_number →
      ArchiveList.getInvLink al2 t f i = ArchiveList.getInvLink al t f i) ∧
    (∀ t f i n, t ≠ r.archive_title ∨ f ≠ r.fund_number ∨ i ≠ r.inventory_number ∨
        n ≠ r.item.item_number →
      ArchiveList.getItem al2 t f i n = ArchiveList.getItem al t f i n) := by
  obtain ⟨link, a, a2, hl, ha, ha2, _, harch⟩ := archivelist_append_shape h
  have hafr := archive_append_frame ha2
  refine ⟨?_, ?_, ?_, ?_⟩
  · intro t ht
    unfold ArchiveList.getArchiveLink
    rw [harch, alookup_aset_ne _ _ ht, alookup_alArchives0_ne ht]
  · intro t f htf
    by_cases ht : t = r.archive_title
    · subst ht
      have hf : f ≠ r.fund_number := by
        rcases htf with h' | h'
        · exact absurd rfl h'
        · exact h'
      unfold ArchiveList.getFundLink
      rw [harch, alookup_aset_self]
      simp only [Option.bind_eq_bind, Option.some_bind]
      rw [hafr.1 f hf]
      by_cases hm : amem r.archive_title al.archives
      · have hl0 : alookup r.archive_title al.archives = some link := by
          have heq : alArchives0 al r = al.archives := by
            unfold alArchives0; rw [if_pos hm]
          rw [← heq]; exact hl
        rw [hl0]
        simp only [Option.bind_eq_bind, Option.some_bind, ha]
      · rw [alookup_eq_none_of_not_amem hm]
        have hl' : link = ⟨r.archive_title, some ⟨r.archive_title, []⟩⟩ := by
          have hx := hl
          unfold alArchives0 at hx
          rw [if_neg hm, alookup_aset_self] at hx
          exact (Option.some_inj.mp hx).symm
        have ha' : a = ⟨r.archive_title, []⟩ := by
          rw [hl'] at ha
          exact (Option.some_inj.mp ha.symm)
        rw [ha']
        simp [Archive.getFundLink, alookup]
    · unfold ArchiveList.getFundLink
      rw [harch, alookup_aset_ne _ _ ht, alookup_alArchives0_ne ht]
  · intro t f i htfi
    by_cases ht : t = r.archive_title
    · subst ht
      have hfi : f ≠ r.fund_number ∨ i ≠ r.inventory_number := by
        rcases htfi with h' | h'
        · exact absurd rfl h'
        · exact h'
      unfold ArchiveList.getInvLink
      rw [harch, alookup_aset_self]
      simp only [Option.bind_eq_bind, Option.some_bind]
      rw [hafr.2.1 f i hfi]
      by_cases hm : amem r.archive_title al.archives
      · have hl0 : alookup r.archive_title al.archives = some link := by
          have heq : alArchives0 al r = al.archives := by
            unfold alArchives0; rw [if_pos hm]
          rw [← heq]; exact hl
        rw [hl0]
        simp only [Option.bind_eq_bind, Option.some_bind, ha]
      · rw [alookup_eq_none_of_not_amem hm]
        have hl' : link = ⟨r.archive_title, some ⟨r.archive_title, []⟩⟩ := by
          have hx := hl
          unfold alArchives0 at hx
          rw [if_neg hm, alookup_aset_self] at hx
          exact (Option.some_inj.mp hx).symm
        have ha' : a = ⟨r.archive_title, []⟩ := by
          rw [hl'] at ha
          exact (Option.some_inj.mp ha.symm)
        rw [ha']
        simp [Archive.getInvLink, alookup]
    · unfold ArchiveList.getInvLink
      rw [harch, alookup_aset_ne _ _ ht, alookup_alArchives0_ne ht]
  · intro t f i n htfin
    by_cases ht : t = r.archive_title
    · subst ht
      have hfin : f ≠ r.fund_number ∨ i ≠ r.inventory_number ∨
          n ≠ r.item.item_number := by
        rcases htfin with h' | h'
        · exact absurd rfl h'
        · exact h'
      unfold ArchiveList.getItem
      rw [harch, alookup_aset_self]
      simp only [Option.bind_eq_bind, Option.some_bind]
      rw [hafr.2.2 f i n hfin]
      by_cases hm : amem r.archive_title al.archives
      · have hl0 : alookup r.archive_title al.archives = some link := by
          have heq : alArchives0 al r = al.archives := by
            unfold alArchives0; rw [if_pos hm]
          rw [← heq]; exact hl
        rw [hl0]
        simp only [Option.bind_eq_bind, Option.some_bind, ha]
      · rw [alookup_eq_none_of_not_amem hm]
        have hl' : link = ⟨r.archive_title, some ⟨r.archive_title, []⟩⟩ := by
          have hx := hl
          unfold alArchives0 at hx
          rw [if_neg hm, alookup_aset_self] at hx
          exact (Option.some_inj.mp hx).symm
        have ha' : a = ⟨r.archive_title, []⟩ := by
          rw [hl'] at ha
          exact (Option.some_inj.mp ha.symm)
        rw [ha']
        simp [Archive.getItem, alookup]
    · unfold ArchiveList.getItem
      rw [harch, alookup_aset_ne _ _ ht, alookup_alArchives0_ne ht]

def c10list : ArchiveList := ⟨none, []⟩

/-- C10 (witness): the frame property instantiated at a concrete empty
archive list, one concrete record, and a concrete unrelated title. -/
theorem claim_C10_witness :
    ∃ al2, ArchiveList.append c10list c3item0 = some al2 ∧
      ArchiveList.getArchiveLink al2 (some ('X' :: [])) =
        ArchiveList.getArchiveLink c10list (some ('X' :: [])) :=
  ⟨_, rfl, (claim_C10 c10list _ c3item0 rfl).1 (some ('X' :: [])) (by decide)⟩

/-! ## Persistence layer: JSON serialization, file paths, lazy fetch

Files are a map from paths (lists of name components) to `Json` values;
writing the same path twice overwrites (`fsRead` finds the last write).
The SHA3-256 title hash is an abstract parameter `hashT` (the claims
that need it assume only its injectivity, which is what the code relies
on).  Every `json.dump` in the writer passes `sort_keys=True`: the
encoder sorts each dict's entries by key (recursively, before any
key coercion) and then renders each key, coercing a `None` dict key to
the JSON key `"null"` (`jsonKeyOpt`).  Sorting raises `TypeError` when
the keys are not mutually comparable, which happens exactly for an
`items` dict holding a `None` key next to other keys — the one mapping
whose keys are still `Optional[str]` at dump time (`Inventory.dump_ok`
below); the `inventories`/`funds` mappings are built with keys already
coerced to `str` (`or ''`).  `json.load` preserves the file's (sorted)
entry order.  The `get_json_dict` functions model the Python methods of
the same name (which build the dicts in insertion order); the
`dumped_json`/`invDump` functions add the `sort_keys=True` dump step. -/

abbrev FPath := List Str

abbrev FS := List (FPath × Json)

/-- Read the last value written at path `p`. -/
def fsRead (p : FPath) (fs : FS) : Option Json := alookup p fs.reverse

/-- `x or ''` on an optional string (`get_title_str`/`get_number_str`). -/
def optStr (x : Option Str) : Str := x.getD []

/-- `json.dump` rendering of an `Optional[str]` dict key. -/
def jsonKeyOpt (k : Option Str) : Str :=
  match k with
  | none => ("null").data
  | some s => s

def optStrJson (x : Option Str) : Json :=
  match x with
  | none => Json.null
  | some s => Json.str s

def optIntJson (x : Option Int) : Json :=
  match x with
  | none => Json.null
  | some n => Json.num n

def Item.get_json_dict (it : Item) : Json :=
  Json.obj [(("item_number").data, optStrJson it.item_number),
            (("item_annotation").data, optStrJson it.item_annot),
            (("data").data, it.data),
            (("start_year").data, optIntJson it.start_year),
            (("end_year").data, optIntJson it.end_year),
            (("url").data, optStrJson it.url)]

def Inventory.get_json_dict (inv : Inventory) : Json :=
  Json.obj [(("number").data, optStrJson inv.number),
            (("annotation").data, optStrJson inv.annot),
            (("items").data,
              Json.obj (inv.items.map (fun p => (jsonKeyOpt p.1, Item.get_json_dict p.2))))]

def Fund.get_json_dict (f : Fund) : Json :=
  Json.obj [(("number").data, optStrJson f.number),
            (("annotation").data, optStrJson f.annot),
            (("inventories").data,
              Json.obj (f.inventories.map (fun p => (optStr p.1, Json.null))))]

def Archive.get_json_dict (a : Archive) : Json :=
  Json.obj [(("title").data, optStrJson a.title),
            (("funds").data,
              Json.obj (a.funds.map (fun p => (optStr p.1, Json.null))))]

def ArchiveList.get_json_dict (al : ArchiveList) : Json :=
  Json.arr (al.archives.map (fun p => optStrJson p.1))

/-! The `sort_keys=True` dump step.  `dumpSort` is insertion sort by a
boolean relation; CPython's `sorted` (stable) computes the same list on
the unique-key lists dumped here. -/

def dumpOrdIns (le : α → α → Bool) (x : α) : List α → List α
  | [] => [x]
  | y :: l => if le x y then x :: y :: l else y :: dumpOrdIns le x l

def dumpSort (le : α → α → Bool) : List α → List α
  | [] => []
  | x :: l => dumpOrdIns le x (dumpSort le l)

mutual
/-- Sort every object's entries by key, recursively (the effect of
`sort_keys=True` on a JSON value whose dict keys are all strings). -/
def jsonSortKeys : Json → Json
  | Json.null => Json.null
  | Json.str s => Json.str s
  | Json.num n => Json.num n
  | Json.arr l => Json.arr (jsonSortKeysArr l)
  | Json.obj l =>
    Json.obj (dumpSort (fun a b => decide (a.1 ≤ b.1)) (jsonSortKeysObj l))
def jsonSortKeysArr : List Json → List Json
  | [] => []
  | j :: r => jsonSortKeys j :: jsonSortKeysArr r
def jsonSortKeysObj : List (Str × Json) → List (Str × Json)
  | [] => []
  | (k, v) :: r => (k, jsonSortKeys v) :: jsonSortKeysObj r
end

/-- The order in which the `items` entries of an inventory appear on
disk: sorted by dumped key.  In every dumpable items dict this equals
CPython's sort of the raw `Optional[str]` keys (all-`str` keys are left
unchanged by the coercion; a dict with a `None` key is dumpable only
when it has no other entry, and a one-entry list is sorted already). -/
def sortItems {α : Type} (l : List (Option Str × α)) : List (Option Str × α) :=
  dumpSort (fun a b => decide (jsonKeyOpt a.1 ≤ jsonKeyOpt b.1)) l

/-- The order in which an `inventories`/`funds` mapping appears on
disk: sorted by its already-coerced (`or ''`) string key. -/
def sortKeyedOpt {α : Type} (l : List (Option Str × α)) : List (Option Str × α) :=
  dumpSort (fun a b => decide (optStr a.1 ≤ optStr b.1)) l

/-- `sorted` succeeds on the raw `Optional[str]` keys of an `items`
dict: either there is nothing to compare, or no key is `None`.
Otherwise `json.dump(..., sort_keys=True)` raises `TypeError`
(`None` is not comparable with `str`). -/
def Inventory.dump_ok (inv : Inventory) : Prop :=
  inv.items.length ≤ 1 ∨ ∀ w ∈ inv.items, w.1 ≠ none

instance (inv : Inventory) : Decidable (Inventory.dump_ok inv) := by
  unfold Inventory.dump_ok
  infer_instance

/-- The inventory file content on a successful dump. -/
def invDump (inv : Inventory) : Json := jsonSortKeys (Inventory.get_json_dict inv)

/-- `json.dump(inventory.get_json_dict(), ..., sort_keys=True)`:
`none` models the `TypeError` on non-comparable `items` keys. -/
def Inventory.dumped_json (inv : Inventory) : Option Json :=
  if Inventory.dump_ok inv then some (invDump inv) else none

def Fund.dumped_json (f : Fund) : Json := jsonSortKeys (Fund.get_json_dict f)

def Archive.dumped_json (a : Archive) : Json :=
  jsonSortKeys (Archive.get_json_dict a)

def ArchiveList.dumped_json (al : ArchiveList) : Json :=
  jsonSortKeys (ArchiveList.get_json_dict al)


/-- Monadic map over `Option` (the obvious structural accumulation of a
Python for-loop whose body may fail). -/
def omapM (g : α → Option β) : List α → Option (List β)
  | [] => some []
  | x :: xs => do
    let y ← g x
    let ys ← omapM g xs
    some (y :: ys)

/-- Monadic map over `Except` (a for-loop whose body may raise). -/
def emapM (g : α → Except ε β) : List α → Except ε (List β)
  | [] => Except.ok []
  | x :: xs => do
    let y ← g x
    let ys ← emapM g xs
    Except.ok (y :: ys)

/-! Readers (`from_json_dict`).  Deserialization failures — a missing
required field, or a JSON shape the typed model cannot hold (which the
writers never produce) — are `none`. -/

def jGet (j : Json) (k : Str) : Option Json :=
  match j with
  | Json.obj l => alookup k l
  | _ => none

def jObj (j : Json) : Option (List (Str × Json)) :=
  match j with
  | Json.obj l => some l
  | _ => none

def readOptStr (j : Json) : Option (Option Str) :=
  match j with
  | Json.null => some none
  | Json.str s => some (some s)
  | _ => none

def readOptInt (j : Json) : Option (Option Int) :=
  match j with
  | Json.null => some none
  | Json.num n => some (some n)
  | _ => none

/-- `utils.get_any_str` applied to a parsed JSON value: falsy values
(null, `''`, `0`) give `None`, a truthy value gives its `str()`. -/
def json_any_str (j : Json) : Option (Option Str) :=
  match j with
  | Json.null => some none
  | Json.str s => some (if s.isEmpty then none else some s)
  | Json.num n => some (if n = 0 then none else some (toString n).data)
  | _ => none

def Item.from_json_dict (j : Json) : Option Item := do
  let jn ← jGet j ("item_number").data
  let n ← (match jn with
    | Json.null => some none
    | Json.str s => some (some s)
    | Json.num k => some (some (toString k).data)
    | _ => none)
  let ja ← jGet j ("item_annotation").data
  let ann ← readOptStr ja
  let d ← jGet j ("data").data
  let sy ← (match jGet j ("start_year").data with
    | none => some none
    | some v => readOptInt v)
  let ey ← (match jGet j ("end_year").data with
    | none => some none
    | some v => readOptInt v)
  let u ← (match jGet j ("url").data with
    | none => some none
    | some v => readOptStr v)
  some ⟨n, ann, d, sy, ey, u⟩

/-- One entry of the `items` loop of `Inventory.from_json_dict`. -/
def readItemEntry (p : Str × Json) : Option (Option Str × Item) := do
  let it ← Item.from_json_dict p.2
  some ((some p.1 : Option Str), it)

def Inventory.from_json_dict (j : Json) : Option Inventory := do
  let jn ← jGet j ("number").data
  let n ← json_any_str jn
  let ja ← jGet j ("annotation").data
  let ann ← readOptStr ja
  let ji ← jGet j ("items").data
  let entries ← jObj ji
  let items ← omapM readItemEntry entries
  some ⟨n, items, ann⟩

/-- One entry of the `inventories` loop of `Fund.from_json_dict`. -/
def readInvEntry (p : Str × Json) : Option (Option Str × InventoryLink) := do
  let key : Option Str := if p.1.isEmpty then none else some p.1
  match p.2 with
  | Json.null => some (key, (⟨key, none⟩ : InventoryLink))
  | v => do
    let inv ← Inventory.from_json_dict v
    some (key, (⟨key, some inv⟩ : InventoryLink))

def Fund.from_json_dict (j : Json) : Option Fund := do
  let jn ← jGet j ("number").data
  let n ← json_any_str jn
  let ja ← jGet j ("annotation").data
  let ann ← readOptStr ja
  let ji ← jGet j ("inventories").data
  let entries ← jObj ji
  let invs ← omapM readInvEntry entries
  some ⟨n, invs, ann⟩

/-- One entry of the `funds` loop of `Archive.from_json_dict`. -/
def readFundEntry (p : Str × Json) : Option (Option Str × FundLink) := do
  let key : Option Str := if p.1.isEmpty then none else some p.1
  match p.2 with
  | Json.null => some (key, (⟨key, none⟩ : FundLink))
  | v => do
    let f ← Fund.from_json_dict v
    some (key, (⟨key, some f⟩ : FundLink))

def Archive.from_json_dict (j : Json) : Option Archive := do
  let jt ← jGet j ("title").data
  let t ← readOptStr jt
  let jf ← jGet j ("funds").data
  let entries ← jObj jf
  let fds ← omapM readFundEntry entries
  some ⟨t, fds⟩

/-- One element of the `list`-shaped root document. -/
def readRootListEntry (e : Json) : Option (Option Str × ArchiveLink) := do
  let s ← readOptStr e
  let t : Option Str := match s with
    | none => none
    | some s => if s.isEmpty then none else some s
  some (t, (⟨t, none⟩ : ArchiveLink))

/-- One entry of the `archives` loop of the dict-shaped root document. -/
def readRootObjEntry (p : Str × Json) : Option (Option Str × ArchiveLink) := do
  let t : Option Str := if p.1.isEmpty then none else some p.1
  match p.2 with
  | Json.null => some (t, (⟨t, none⟩ : ArchiveLink))
  | v => do
    let a ← Archive.from_json_dict v
    some (t, (⟨t, some a⟩ : ArchiveLink))

def ArchiveList.from_json_dict (j : Json) (base : FPath) : Option ArchiveList :=
  match j with
  | Json.arr l => do
    let archives ← omapM readRootListEntry l
    some ⟨some base, archives⟩
  | _ => do
    let ja ← jGet j ("archives").data
    let entries ← jObj ja
    let archives ← omapM readRootObjEntry entries
    some ⟨some base, archives⟩

/-! Lazy fetch.  Ancestor identifiers (the archive node's title, the
fund node's number), which the source reaches through parent
back-references, are explicit arguments.  Raising (`ValueError` on a
missing base directory, `IOError` on a missing file, malformed JSON) is
`Except.error`. -/

def InventoryLink.fetch (hashT : Str → Str) (base : Option FPath)
    (atitle fnum : Option Str) (l : InventoryLink) (fs : FS) :
    Except Unit (Inventory × InventoryLink) :=
  match l.loaded_inventory with
  | some inv => Except.ok (inv, l)
  | none =>
    match base with
    | none => Except.error ()
    | some bp =>
      let p := bp ++ [("archive").data ++ hashT (optStr atitle),
                      ("fund").data ++ optStr fnum,
                      ("inventory").data ++ optStr l.number ++ (".json").data]
      match fsRead p fs with
      | none => Except.error ()
      | some j =>
        match Inventory.from_json_dict j with
        | none => Except.error ()
        | some inv => Except.ok (inv, { l with loaded_inventory := some inv })

def FundLink.fetch (hashT : Str → Str) (base : Option FPath)
    (atitle : Option Str) (l : FundLink) (fs : FS) :
    Except Unit (Fund × FundLink) :=
  match l.loaded_fund with
  | some f => Except.ok (f, l)
  | none =>
    match base with
    | none => Except.error ()
    | some bp =>
      let p := bp ++ [("archive").data ++ hashT (optStr atitle),
                      ("fund").data ++ optStr l.number,
                      ("list.json").data]
      match fsRead p fs with
      | none => Except.error ()
      | some j =>
        match Fund.from_json_dict j with
        | none => Except.error ()
        | some f => Except.ok (f, { l with loaded_fund := some f })

def ArchiveLink.fetch (hashT : Str → Str) (base : Option FPath)
    (l : ArchiveLink) (fs : FS) :
    Except Unit (Archive × ArchiveLink) :=
  match l.loaded_archive with
  | some a => Except.ok (a, l)
  | none =>
    match base with
    | none => Except.error ()
    | some bp =>
      let p := bp ++ [("archive").data ++ hashT (optStr l.title),
                      ("list.json").data]
      match fsRead p fs with
      | none => Except.error ()
      | some j =>
        match Archive.from_json_dict j with
        | none => Except.error ()
        | some a => Except.ok (a, { l with loaded_archive := some a })

/-- One step of `Fund.fetch_all`: fetch one inventory link. -/
def fetchInvEntry (hashT : Str → Str) (base : Option FPath) (atitle fnum : Option Str)
    (fs : FS) (p : Option Str × InventoryLink) :
    Except Unit (Option Str × InventoryLink) := do
  let r ← InventoryLink.fetch hashT base atitle fnum p.2 fs
  pure (p.1, r.2)

def Fund.fetch_all (hashT : Str → Str) (base : Option FPath) (atitle : Option Str)
    (f : Fund) (fs : FS) : Except Unit Fund := do
  let invs ← emapM (fetchInvEntry hashT base atitle f.number fs) f.inventories
  pure { f with inventories := invs }

/-- One step of `Archive.fetch_all`: fetch one fund link and then all
of the fund's inventories. -/
def fetchFundEntry (hashT : Str → Str) (base : Option FPath) (atitle : Option Str)
    (fs : FS) (p : Option Str × FundLink) : Except Unit (Option Str × FundLink) := do
  let r ← FundLink.fetch hashT base atitle p.2 fs
  let f2 ← Fund.fetch_all hashT base atitle r.1 fs
  pure (p.1, ({ r.2 with loaded_fund := some f2 } : FundLink))

def Archive.fetch_all (hashT : Str → Str) (base : Option FPath)
    (a : Archive) (fs : FS) : Except Unit Archive := do
  let fds ← emapM (fetchFundEntry hashT base a.title fs) a.funds
  pure { a with funds := fds }

/-- One step of `ArchiveList.fetch_all`: fetch one archive link and
then all of its funds and inventories. -/
def fetchArchEntry (hashT : Str → Str) (base : Option FPath) (fs : FS)
    (p : Option Str × ArchiveLink) : Except Unit (Option Str × ArchiveLink) := do
  let r ← ArchiveLink.fetch hashT base p.2 fs
  let a2 ← Archive.fetch_all hashT base r.1 fs
  pure (p.1, ({ r.2 with loaded_archive := some a2 } : ArchiveLink))

def ArchiveList.fetch_all (hashT : Str → Str) (al : ArchiveList) (fs : FS) :
    Except Unit ArchiveList := do
  let archs ← emapM (fetchArchEntry hashT al.base_directory_path fs) al.archives
  pure { al with archives := archs }

/-- `write_archives_files`: serialize a fully in-memory tree into the
sharded layout, every file dumped with `sort_keys=True`.  Accessing the
content of a link goes through `fetch`, which for a materialized link
returns it without file access; a non-materialized link (whose fetch
the in-memory writer cannot perform) gives `none`, a case the claims
restrict away — as does the `TypeError` of a non-dumpable `items` dict
(`Inventory.dumped_json`).  The inventory file written for one
inventory link: -/
def writeInvEntry (out : FPath) (adir fdir : Str) (z : Option Str × InventoryLink) :
    Option (FPath × Json) := do
  let inv ← z.2.loaded_inventory
  let dj ← Inventory.dumped_json inv
  some ((out ++ [adir, fdir,
          ("inventory").data ++ optStr z.2.number ++ (".json").data],
        dj) : FPath × Json)

/-- The files written for one fund link: its `list.json` plus one file
per inventory. -/
def writeFundBlock (out : FPath) (adir : Str) (q : Option Str × FundLink) :
    Option FS := do
  let f ← q.2.loaded_fund
  let fdir := ("fund").data ++ optStr q.2.number
  let invEntries ← omapM (writeInvEntry out adir fdir) f.inventories
  some ((out ++ [adir, fdir, ("list.json").data], Fund.dumped_json f)
        :: invEntries)

/-- The files written for one archive link: its `list.json` plus its
fund blocks. -/
def writeArchBlock (hashT : Str → Str) (out : FPath) (p : Option Str × ArchiveLink) :
    Option FS := do
  let a ← p.2.loaded_archive
  let adir := ("archive").data ++ hashT (optStr p.2.title)
  let fundBlocks ← omapM (writeFundBlock out adir) a.funds
  some ((out ++ [adir, ("list.json").data], Archive.dumped_json a)
        :: fundBlocks.flatten)

def write_archives_files (hashT : Str → Str) (al : ArchiveList) (out : FPath) :
    Option FS := do
  let blocks ← omapM (writeArchBlock hashT out) al.archives
  some (((out ++ [("list.json").data], ArchiveList.dumped_json al) : FPath × Json)
        :: blocks.flatten)

/-- The read-back phase of the round trip: parse the root `list.json`
and then fetch every lazy link (`fetch_all`). -/
def read_back (hashT : Str → Str) (out : FPath) (fs : FS) : Except Unit ArchiveList := do
  let rootJson ← match fsRead (out ++ [("list.json").data]) fs with
                 | none => Except.error ()
                 | some j => Except.ok j
  let al ← match ArchiveList.from_json_dict rootJson out with
           | none => Except.error ()
           | some al => Except.ok al
  ArchiveList.fetch_all hashT al fs

/-! ## Claim C8: the Link fetch contract -/

/-- C8: for each Link type — a materialized link's `fetch` returns the
in-memory node unchanged whatever the file system and base directory
(no file access); a successful `fetch` leaves the node cached so that
every repeated `fetch` returns the same node without touching the file
system again; and `fetch` on a non-materialized link with no configured
base directory raises (`Except.error`). -/
theorem claim_C8 :
    ((∀ (hashT : Str → Str) (base : Option FPath) (atl fn : Option Str)
        (l : InventoryLink) (inv : Inventory) (fs : FS),
      l.loaded_inventory = some inv →
      InventoryLink.fetch hashT base atl fn l fs = Except.ok (inv, l)) ∧
     (∀ (hashT : Str → Str) (base : Option FPath) (atl fn : Option Str)
        (l : InventoryLink) (fs : FS) (inv : Inventory) (l' : InventoryLink),
      InventoryLink.fetch hashT base atl fn l fs = Except.ok (inv, l') →
      l'.loaded_inventory = some inv ∧
      ∀ (hashT' : Str → Str) (base' : Option FPath) (atl' fn' : Option Str) (fs' : FS),
        InventoryLink.fetch hashT' base' atl' fn' l' fs' = Except.ok (inv, l')) ∧
     (∀ (hashT : Str → Str) (atl fn : Option Str) (l : InventoryLink) (fs : FS),
      l.loaded_inventory = none →
      InventoryLink.fetch hashT none atl fn l fs = Except.error ())) ∧
    ((∀ (hashT : Str → Str) (base : Option FPath) (atl : Option Str)
        (l : FundLink) (f : Fund) (fs : FS),
      l.loaded_fund = some f →
      FundLink.fetch hashT base atl l fs = Except.ok (f, l)) ∧
     (∀ (hashT : Str → Str) (base : Option FPath) (atl : Option Str)
        (l : FundLink) (fs : FS) (f : Fund) (l' : FundLink),
      FundLink.fetch hashT base atl l fs = Except.ok (f, l') →
      l'.loaded_fund = some f ∧
      ∀ (hashT' : Str → Str) (base' : Option FPath) (atl' : Option Str) (fs' : FS),
        FundLink.fetch hashT' base' atl' l' fs' = Except.ok (f, l')) ∧
     (∀ (hashT : Str → Str) (atl : Option Str) (l : FundLink) (fs : FS),
      l.loaded_fund = none →
      FundLink.fetch hashT none atl l fs = Except.error ())) ∧
    ((∀ (hashT : Str → Str) (base : Option FPath)
        (l : ArchiveLink) (a : Archive) (fs : FS),
      l.loaded_archive = some a →
      ArchiveLink.fetch hashT base l fs = Except.ok (a, l)) ∧
     (∀ (hashT : Str → Str) (base : Option FPath)
        (l : ArchiveLink) (fs : FS) (a : Archive) (l' : ArchiveLink),
      ArchiveLink.fetch hashT base l fs = Except.ok (a, l') →
      l'.loaded_archive = some a ∧
      ∀ (hashT' : Str → Str) (base' : Option FPath) (fs' : FS),
        ArchiveLink.fetch hashT' base' l' fs' = Except.ok (a, l')) ∧
     (∀ (hashT : Str → Str) (l : ArchiveLink) (fs : FS),
      l.loaded_archive = none →
      ArchiveLink.fetch hashT none l fs = Except.error ())) := by
  refine ⟨⟨?_, ?_, ?_⟩, ⟨?_, ?_, ?_⟩, ⟨?_, ?_, ?_⟩⟩
  · intro hashT base atl fn l inv fs h
    unfold InventoryLink.fetch
    rw [h]
  · intro hashT base atl fn l fs inv l' h
    unfold InventoryLink.fetch at h
    cases hld : l.loaded_inventory with
    | some inv0 =>
      rw [hld] at h
      obtain ⟨h1, h2⟩ := Prod.mk.injEq .. ▸ (Except.ok.injEq .. ▸ h)
      subst h1; subst h2
      refine ⟨hld, ?_⟩
      intro hashT' base' atl' fn' fs'
      unfold InventoryLink.fetch
      rw [hld]
    | none =>
      rw [hld] at h
      cases base with
      | none => simp at h
      | some bp =>
        simp only [] at h
        cases hr : fsRead (bp ++ [("archive").data ++ hashT (optStr atl),
            ("fund").data ++ optStr fn,
            ("inventory").data ++ optStr l.number ++ (".json").data]) fs with
        | none => rw [hr] at h; simp at h
        | some j =>
          rw [hr] at h
          simp only [] at h
          cases hp : Inventory.from_json_dict j with
          | none => rw [hp] at h; simp at h
          | some inv1 =>
            rw [hp] at h
            obtain ⟨h1, h2⟩ := Prod.mk.injEq .. ▸ (Except.ok.injEq .. ▸ h)
            subst h1
            refine ⟨by rw [← h2], ?_⟩
            intro hashT' base' atl' fn' fs'
            unfold InventoryLink.fetch
            rw [← h2]
  · intro hashT atl fn l fs h
    unfold InventoryLink.fetch
    rw [h]
  · intro hashT base atl l f fs h
    unfold FundLink.fetch
    rw [h]
  · intro hashT base atl l fs f l' h
    unfold FundLink.fetch at h
    cases hld : l.loaded_fund with
    | some f0 =>
      rw [hld] at h
      obtain ⟨h1, h2⟩ := Prod.mk.injEq .. ▸ (Except.ok.injEq .. ▸ h)
      subst h1; subst h2
      refine ⟨hld, ?_⟩
      intro hashT' base' atl' fs'
      unfold FundLink.fetch
      rw [hld]
    | none =>
      rw [hld] at h
      cases base with
      | none => simp at h
      | some bp =>
        simp only [] at h
        cases hr : fsRead (bp ++ [("archive").data ++ hashT (optStr atl),
            ("fund").data ++ optStr l.number, ("list.json").data]) fs with
        | none => rw [hr] at h; simp at h
        | some j =>
          rw [hr] at h
          simp only [] at h
          cases hp : Fund.from_json_dict j with
          | none => rw [hp] at h; simp at h
          | some f1 =>
            rw [hp] at h
            obtain ⟨h1, h2⟩ := Prod.mk.injEq .. ▸ (Except.ok.injEq .. ▸ h)
            subst h1
            refine ⟨by rw [← h2], ?_⟩
            intro hashT' base' atl' fs'
            unfold FundLink.fetch
            rw [← h2]
  · intro hashT atl l fs h
    unfold FundLink.fetch
    rw [h]
  · intro hashT base l a fs h
    unfold ArchiveLink.fetch
    rw [h]
  · intro hashT base l fs a l' h
    unfold ArchiveLink.fetch at h
    cases hld : l.loaded_archive with
    | some a0 =>
      rw [hld] at h
      obtain ⟨h1, h2⟩ := Prod.mk.injEq .. ▸ (Except.ok.injEq .. ▸ h)
      subst h1; subst h2
      refine ⟨hld, ?_⟩
      intro hashT' base' fs'
      unfold ArchiveLink.fetch
      rw [hld]
    | none =>
      rw [hld] at h
      cases base with
      | none => simp at h
      | some bp =>
        simp only [] at h
        cases hr : fsRead (bp ++ [("archive").data ++ hashT (optStr l.title),
            ("list.json").data]) fs with
        | none => rw [hr] at h; simp at h
        | some j =>
          rw [hr] at h
          simp only [] at h
          cases hp : Archive.from_json_dict j with
          | none => rw [hp] at h; simp at h
          | some a1 =>
            rw [hp] at h
            obtain ⟨h1, h2⟩ := Prod.mk.injEq .. ▸ (Except.ok.injEq .. ▸ h)
            subst h1
            refine ⟨by rw [← h2], ?_⟩
            intro hashT' base' fs'
            unfold ArchiveLink.fetch
            rw [← h2]
  · intro hashT l fs h
    unfold ArchiveLink.fetch
    rw [h]

def c8inv : Inventory := ⟨some ('1' :: []), [], none⟩

def c8link : InventoryLink := ⟨some ('1' :: []), some c8inv⟩

/-- C8 (witness): a materialized inventory link fetched with no base
directory and an empty file system still returns its node. -/
theorem claim_C8_witness :
    InventoryLink.fetch (fun s => s) none none none c8link [] =
      Except.ok (c8inv, c8link) :=
  claim_C8.1.1 (fun s => s) none none none c8link c8inv [] rfl

/-! ## Claim C6: rename_archives -/

/-- The rename loop of the `rename_archives` command, after the tree has
been fully fetched: process the JSON rename mapping entry by entry.  An
entry renaming a title to itself is skipped, an entry whose old title is
absent is skipped, an entry whose new title already exists raises
(`click.ClickException`), otherwise the archive link is popped, its
title and its (materialized) archive's title are set to the new name,
and it is re-inserted under the new key.  A non-materialized archive at
a rename (impossible after `fetch_all`) is modelled as an error. -/
def rename_archives_loop (al : ArchiveList) :
    List (Str × Str) → Except Unit ArchiveList
  | [] => Except.ok al
  | (old_name, new_name) :: rest =>
    if old_name = new_name then rename_archives_loop al rest
    else if ¬ amem (some old_name) al.archives then rename_archives_loop al rest
    else if amem (some new_name) al.archives then Except.error ()
    else
      match alookup (some old_name) al.archives with
      | none => Except.error ()
      | some link =>
        match link.loaded_archive with
        | none => Except.error ()
        | some a =>
          let link2 : ArchiveLink :=
            ⟨some new_name, some { a with title := some new_name }⟩
          let archives2 :=
            aset (some new_name) link2 (apop (some old_name) al.archives)
          rename_archives_loop { al with archives := archives2 } rest

/-- The whole `rename_archives` command after loading: run the rename
loop, then (only on success) write the renamed tree to the output
directory; on any error nothing is written. -/
def rename_archives (hashT : Str → Str) (al : ArchiveList)
    (d : List (Str × Str)) (out : FPath) : Except Unit FS :=
  match rename_archives_loop al d with
  | Except.error e => Except.error e
  | Except.ok al' =>
    match write_archives_files hashT al' out with
    | none => Except.error ()
    | some fs => Except.ok fs

/-- C6: a rename entry whose target title already exists makes the
whole command fail with an error — no output tree is written, so the
archive tree on disk is left as it was before the rename operation
started — and an entry renaming a title to itself is a no-op: the loop
continues on the unchanged tree without raising. -/
theorem claim_C6 :
    (∀ (al : ArchiveList) (o n : Str) (rest : List (Str × Str)),
      o ≠ n → amem (some o) al.archives → amem (some n) al.archives →
      rename_archives_loop al ((o, n) :: rest) = Except.error ()) ∧
    (∀ (hashT : Str → Str) (al : ArchiveList) (o n : Str)
       (rest : List (Str × Str)) (out : FPath),
      o ≠ n → amem (some o) al.archives → amem (some n) al.archives →
      rename_archives hashT al ((o, n) :: rest) out = Except.error ()) ∧
    (∀ (al : ArchiveList) (o : Str) (rest : List (Str × Str)),
      rename_archives_loop al ((o, o) :: rest) = rename_archives_loop al rest) := by
  have hloop : ∀ (al : ArchiveList) (o n : Str) (rest : List (Str × Str)),
      o ≠ n → amem (some o) al.archives → amem (some n) al.archives →
      rename_archives_loop al ((o, n) :: rest) = Except.error () := by
    intro al o n rest hne ho hn
    unfold rename_archives_loop
    rw [if_neg hne, if_neg (by simpa using ho), if_pos hn]
  refine ⟨hloop, ?_, ?_⟩
  · intro hashT al o n rest out hne ho hn
    unfold rename_archives
    rw [hloop al o n rest hne ho hn]
  · intro al o rest
    unfold rename_archives_loop
    rw [if_pos rfl]
    cases rest with
    | nil => rfl
    | cons p r => rfl

def c6list : ArchiveList :=
  ⟨none, [(some ('A' :: []), ⟨some ('A' :: []), some ⟨some ('A' :: []), []⟩⟩),
          (some ('B' :: []), ⟨some ('B' :: []), some ⟨some ('B' :: []), []⟩⟩)]⟩

/-- C6 (witness): renaming "A" to the already-present "B" errors, and a
self-rename of "A" is a no-op, on a concrete two-archive tree. -/
theorem claim_C6_witness :
    rename_archives_loop c6list [(('A' :: []), ('B' :: []))] = Except.error () ∧
    rename_archives_loop c6list [(('A' :: []), ('A' :: []))] =
      rename_archives_loop c6list [] :=
  ⟨claim_C6.1 c6list ('A' :: []) ('B' :: []) [] (by decide) (by decide) (by decide),
   claim_C6.2.2 c6list ('A' :: []) []⟩

/-! ## Claim C1: write/read round trip

Well-formedness of a fully in-memory tree: dictionary keys are `None`
or nonempty (never `Some \x22\x22`), every link's own number/title
equals its key in the parent mapping, the materialized node's stored
title/number equals the key too, keys are unique, item keys remain
unique after the dump-time `None` → `"null"` coercion, and every
`items` dict is dumpable (no `None` key next to other keys, which
would make `sorted` — hence `json.dump(..., sort_keys=True)` — raise
`TypeError`). -/

def WFInvLink (p : Option Str × InventoryLink) : Prop :=
  p.1 ≠ some [] ∧ p.2.number = p.1 ∧
  match p.2.loaded_inventory with
  | none => False
  | some inv => inv.number ≠ some [] ∧ Inventory.dump_ok inv ∧
      (inv.items.map (fun z => jsonKeyOpt z.1)).Nodup

def WFFundLink (p : Option Str × FundLink) : Prop :=
  p.1 ≠ some [] ∧ p.2.number = p.1 ∧
  match p.2.loaded_fund with
  | none => False
  | some f => f.number = p.1 ∧
      (f.inventories.map Prod.fst).Nodup ∧ ∀ z ∈ f.inventories, WFInvLink z

def WFArchLink (p : Option Str × ArchiveLink) : Prop :=
  p.1 ≠ some [] ∧ p.2.title = p.1 ∧
  match p.2.loaded_archive with
  | none => False
  | some a => a.title = p.1 ∧
      (a.funds.map Prod.fst).Nodup ∧ ∀ q ∈ a.funds, WFFundLink q

def WFList (al : ArchiveList) : Prop :=
  (al.archives.map Prod.fst).Nodup ∧ ∀ p ∈ al.archives, WFArchLink p

instance (p : Option Str × InventoryLink) : Decidable (WFInvLink p) := by
  unfold WFInvLink
  cases h : p.2.loaded_inventory <;> exact inferInstance

instance (p : Option Str × FundLink) : Decidable (WFFundLink p) := by
  unfold WFFundLink
  cases h : p.2.loaded_fund <;> exact inferInstance

instance (p : Option Str × ArchiveLink) : Decidable (WFArchLink p) := by
  unfold WFArchLink
  cases h : p.2.loaded_archive <;> exact inferInstance

instance (al : ArchiveList) : Decidable (WFList al) := by
  unfold WFList; infer_instance

/-! Helper lemmas on `omapM`/`emapM` and unique-key lookups. -/

theorem omapM_eq_map {g : α → Option β} {h : α → β} :
    ∀ {l : List α}, (∀ x ∈ l, g x = some (h x)) → omapM g l = some (l.map h) := by
  intro l
  induction l with
  | nil => intro _; rfl
  | cons x xs ih =>
    intro H
    unfold omapM
    rw [H x (by simp), ih (fun y hy => H y (by simp [hy]))]
    rfl

theorem omapM_map {f : α → β} {g : β → Option γ} :
    ∀ (l : List α), omapM g (l.map f) = omapM (fun x => g (f x)) l := by
  intro l
  induction l with
  | nil => rfl
  | cons x xs ih =>
    simp only [List.map_cons, omapM]
    rw [ih]

theorem emapM_eq_map {g : α → Except ε β} {h : α → β} :
    ∀ {l : List α}, (∀ x ∈ l, g x = Except.ok (h x)) → emapM g l = Except.ok (l.map h) := by
  intro l
  induction l with
  | nil => intro _; rfl
  | cons x xs ih =>
    intro H
    unfold emapM
    rw [H x (by simp), ih (fun y hy => H y (by simp [hy]))]
    rfl

theorem alookup_eq_of_mem_nodup [DecidableEq κ] {k : κ} {v : α} :
    ∀ {l : List (κ × α)}, (k, v) ∈ l → (l.map Prod.fst).Nodup →
      alookup k l = some v := by
  intro l
  induction l with
  | nil => intro h _; simp at h
  | cons p rest ih =>
    intro hmem hnd
    obtain ⟨k₀, v₀⟩ := p
    rcases List.mem_cons.mp hmem with h | h
    · obtain ⟨h1, h2⟩ := Prod.mk.injEq .. ▸ h.symm
      subst h1; subst h2
      simp [alookup]
    · have hk : k₀ ≠ k := by
        intro he
        subst he
        have : k₀ ∈ rest.map Prod.fst :=
          List.mem_map.mpr ⟨(k₀, v), h, rfl⟩
        simp only [List.map_cons, List.nodup_cons] at hnd
        exact hnd.1 this
      simp only [alookup, if_neg hk]
      exact ih h (by simp only [List.map_cons, List.nodup_cons] at hnd; exact hnd.2)

theorem fsRead_eq_of_mem_nodup {p : FPath} {v : Json} {fs : FS}
    (hmem : (p, v) ∈ fs) (hnd : (fs.map Prod.fst).Nodup) : fsRead p fs = some v := by
  unfold fsRead
  apply alookup_eq_of_mem_nodup (List.mem_reverse.mpr hmem)
  rw [List.map_reverse]
  exact List.nodup_reverse.mpr hnd

/-! Lemmas about the dump-time key sort, and per-level parse round
trips: `from_json_dict` applied to the dumped (`sort_keys=True`) file
content. -/

theorem dumpOrdIns_perm {le : α → α → Bool} (x : α) :
    ∀ (l : List α), (dumpOrdIns le x l).Perm (x :: l) := by
  intro l
  induction l with
  | nil => exact List.Perm.refl _
  | cons y r ih =>
    unfold dumpOrdIns
    by_cases h : le x y
    · rw [if_pos h]
    · rw [if_neg h]
      exact (List.Perm.cons y ih).trans (List.Perm.swap x y r)

theorem dumpSort_perm {le : α → α → Bool} :
    ∀ (l : List α), (dumpSort le l).Perm l := by
  intro l
  induction l with
  | nil => exact List.Perm.refl _
  | cons x r ih =>
    unfold dumpSort
    exact (dumpOrdIns_perm x (dumpSort le r)).trans (List.Perm.cons x ih)

theorem mem_dumpSort {le : α → α → Bool} {x : α} {l : List α} :
    x ∈ dumpSort le l ↔ x ∈ l := (dumpSort_perm l).mem_iff

theorem dumpOrdIns_map {α β : Type} {f : α → β} {le : β → β → Bool} (x : α) :
    ∀ (l : List α), dumpOrdIns le (f x) (l.map f) =
      (dumpOrdIns (fun a b => le (f a) (f b)) x l).map f := by
  intro l
  induction l with
  | nil => rfl
  | cons y r ih =>
    simp only [List.map_cons, dumpOrdIns]
    by_cases h : le (f x) (f y)
    · rw [if_pos h, if_pos h]
      rfl
    · rw [if_neg h, if_neg h, ih]
      rfl

theorem dumpSort_map {α β : Type} {f : α → β} {le : β → β → Bool} :
    ∀ (l : List α), dumpSort le (l.map f) =
      (dumpSort (fun a b => le (f a) (f b)) l).map f := by
  intro l
  induction l with
  | nil => rfl
  | cons x r ih =>
    simp only [List.map_cons, dumpSort]
    rw [ih, dumpOrdIns_map]

theorem jsonSortKeysArr_eq_map :
    ∀ (l : List Json), jsonSortKeysArr l = l.map jsonSortKeys := by
  intro l
  induction l with
  | nil => rfl
  | cons j r ih => simp only [jsonSortKeysArr, List.map_cons, ih]

theorem jsonSortKeysObj_eq_map :
    ∀ (l : List (Str × Json)),
      jsonSortKeysObj l = l.map (fun p => (p.1, jsonSortKeys p.2)) := by
  intro l
  induction l with
  | nil => rfl
  | cons p r ih =>
    obtain ⟨k, v⟩ := p
    simp only [jsonSortKeysObj, List.map_cons, ih]

theorem jsonSortKeys_optStrJson (x : Option Str) :
    jsonSortKeys (optStrJson x) = optStrJson x := by
  cases x <;> rfl

theorem jsonSortKeys_optIntJson (x : Option Int) :
    jsonSortKeys (optIntJson x) = optIntJson x := by
  cases x <;> rfl

theorem optStr_key_roundtrip {k : Option Str} (hk : k ≠ some []) :
    (if (optStr k).isEmpty then none else some (optStr k)) = k := by
  cases k with
  | none => rfl
  | some s =>
    cases s with
    | nil => exact absurd rfl hk
    | cons c cs => rfl

theorem json_any_str_roundtrip {k : Option Str} (hk : k ≠ some []) :
    json_any_str (optStrJson k) = some k := by
  cases k with
  | none => rfl
  | some s =>
    cases s with
    | nil => exact absurd rfl hk
    | cons c cs => rfl

theorem readOptStr_roundtrip (k : Option Str) :
    readOptStr (optStrJson k) = some k := by
  cases k <;> rfl

/-- The item record that comes back from a round trip: every field as
written, the free-form `data` value with its object keys sorted (the
only trace `sort_keys=True` leaves inside an item). -/
def itemRT (it : Item) : Item :=
  ⟨it.item_number, it.item_annot, jsonSortKeys it.data, it.start_year,
   it.end_year, it.url⟩

theorem item_dump_unfold (it : Item) :
    jsonSortKeys (Item.get_json_dict it) =
      Json.obj [(("data").data, jsonSortKeys it.data),
                (("end_year").data, optIntJson it.end_year),
                (("item_annotation").data, optStrJson it.item_annot),
                (("item_number").data, optStrJson it.item_number),
                (("start_year").data, optIntJson it.start_year),
                (("url").data, optStrJson it.url)] := by
  have h : jsonSortKeys (Item.get_json_dict it) =
      Json.obj [(("data").data, jsonSortKeys it.data),
                (("end_year").data, jsonSortKeys (optIntJson it.end_year)),
                (("item_annotation").data, jsonSortKeys (optStrJson it.item_annot)),
                (("item_number").data, jsonSortKeys (optStrJson it.item_number)),
                (("start_year").data, jsonSortKeys (optIntJson it.start_year)),
                (("url").data, jsonSortKeys (optStrJson it.url))] := rfl
  rw [h]
  simp only [jsonSortKeys_optStrJson, jsonSortKeys_optIntJson]

theorem item_roundtrip (it : Item) :
    Item.from_json_dict (jsonSortKeys (Item.get_json_dict it)) =
      some (itemRT it) := by
  rw [item_dump_unfold]
  obtain ⟨n, a, d, sy, ey, u⟩ := it
  cases n <;> cases a <;> cases sy <;> cases ey <;> cases u <;> rfl

theorem inv_from_json_unfold (n ann : Option Str) (entries : List (Str × Json)) :
    Inventory.from_json_dict (Json.obj
      [(("annotation").data, optStrJson ann),
       (("items").data, Json.obj entries),
       (("number").data, optStrJson n)]) =
    (do
      let nn ← json_any_str (optStrJson n)
      let a ← readOptStr (optStrJson ann)
      let its ← omapM readItemEntry entries
      some (⟨nn, its, a⟩ : Inventory)) := rfl

theorem inv_dump_unfold (inv : Inventory) :
    invDump inv =
      Json.obj [(("annotation").data, optStrJson inv.annot),
                (("items").data, Json.obj ((sortItems inv.items).map
                  (fun w => (jsonKeyOpt w.1, jsonSortKeys (Item.get_json_dict w.2))))),
                (("number").data, optStrJson inv.number)] := by
  have h : invDump inv =
      Json.obj [(("annotation").data, jsonSortKeys (optStrJson inv.annot)),
                (("items").data, Json.obj (dumpSort (fun x y => decide (x.1 ≤ y.1))
                  (jsonSortKeysObj (inv.items.map (fun p =>
                    (jsonKeyOpt p.1, Item.get_json_dict p.2)))))),
                (("number").data, jsonSortKeys (optStrJson inv.number))] := rfl
  rw [h, jsonSortKeysObj_eq_map, List.map_map]
  simp only [jsonSortKeys_optStrJson]
  rw [dumpSort_map]
  rfl

theorem inv_roundtrip (inv : Inventory) (hn : inv.number ≠ some []) :
    Inventory.from_json_dict (invDump inv) =
      some ⟨inv.number,
            (sortItems inv.items).map (fun w =>
              ((some (jsonKeyOpt w.1) : Option Str), itemRT w.2)),
            inv.annot⟩ := by
  rw [inv_dump_unfold, inv_from_json_unfold]
  rw [json_any_str_roundtrip hn, readOptStr_roundtrip]
  simp only [Option.bind_eq_bind, Option.some_bind]
  rw [omapM_map]
  have homap : omapM (fun x : Option Str × Item =>
      readItemEntry (jsonKeyOpt x.1, jsonSortKeys (Item.get_json_dict x.2)))
      (sortItems inv.items) =
      some ((sortItems inv.items).map (fun w =>
        ((some (jsonKeyOpt w.1) : Option Str), itemRT w.2))) := by
    apply omapM_eq_map
    intro w _
    unfold readItemEntry
    rw [show (jsonKeyOpt w.1, jsonSortKeys (Item.get_json_dict w.2)).2 =
      jsonSortKeys (Item.get_json_dict w.2) from rfl]
    rw [item_roundtrip]
    rfl
  rw [homap]
  rfl

theorem readInvEntry_null {k : Option Str} (hk : k ≠ some []) :
    readInvEntry (optStr k, Json.null) = some (k, (⟨k, none⟩ : InventoryLink)) := by
  cases k with
  | none => rfl
  | some s =>
    cases s with
    | nil => exact absurd rfl hk
    | cons c cs => rfl

theorem readFundEntry_null {k : Option Str} (hk : k ≠ some []) :
    readFundEntry (optStr k, Json.null) = some (k, (⟨k, none⟩ : FundLink)) := by
  cases k with
  | none => rfl
  | some s =>
    cases s with
    | nil => exact absurd rfl hk
    | cons c cs => rfl

theorem readRootListEntry_key {k : Option Str} (hk : k ≠ some []) :
    readRootListEntry (optStrJson k) = some (k, (⟨k, none⟩ : ArchiveLink)) := by
  cases k with
  | none => rfl
  | some s =>
    cases s with
    | nil => exact absurd rfl hk
    | cons c cs => rfl

theorem fund_from_json_unfold (n ann : Option Str) (entries : List (Str × Json)) :
    Fund.from_json_dict (Json.obj
      [(("annotation").data, optStrJson ann),
       (("inventories").data, Json.obj entries),
       (("number").data, optStrJson n)]) =
    (do
      let nn ← json_any_str (optStrJson n)
      let a ← readOptStr (optStrJson ann)
      let invs ← omapM readInvEntry entries
      some (⟨nn, invs, a⟩ : Fund)) := rfl

theorem fund_dump_unfold (f : Fund) :
    Fund.dumped_json f =
      Json.obj [(("annotation").data, optStrJson f.annot),
                (("inventories").data, Json.obj ((sortKeyedOpt f.inventories).map
                  (fun p => (optStr p.1, Json.null)))),
                (("number").data, optStrJson f.number)] := by
  have h : Fund.dumped_json f =
      Json.obj [(("annotation").data, jsonSortKeys (optStrJson f.annot)),
                (("inventories").data, Json.obj (dumpSort (fun x y => decide (x.1 ≤ y.1))
                  (jsonSortKeysObj (f.inventories.map (fun p =>
                    (optStr p.1, Json.null)))))),
                (("number").data, jsonSortKeys (optStrJson f.number))] := rfl
  rw [h, jsonSortKeysObj_eq_map, List.map_map]
  simp only [jsonSortKeys_optStrJson]
  rw [dumpSort_map]
  rfl

theorem fund_roundtrip (f : Fund) (hn : f.number ≠ some [])
    (hkeys : ∀ z ∈ f.inventories, z.1 ≠ some []) :
    Fund.from_json_dict (Fund.dumped_json f) =
      some ⟨f.number,
            (sortKeyedOpt f.inventories).map (fun z =>
              (z.1, (⟨z.1, none⟩ : InventoryLink))),
            f.annot⟩ := by
  rw [fund_dump_unfold, fund_from_json_unfold]
  rw [json_any_str_roundtrip hn, readOptStr_roundtrip]
  simp only [Option.bind_eq_bind, Option.some_bind]
  rw [omapM_map]
  have homap : omapM (fun x : Option Str × InventoryLink =>
      readInvEntry (optStr x.1, Json.null)) (sortKeyedOpt f.inventories) =
      some ((sortKeyedOpt f.inventories).map (fun z =>
        (z.1, (⟨z.1, none⟩ : InventoryLink)))) :=
    omapM_eq_map (fun z hz => readInvEntry_null (hkeys z (mem_dumpSort.mp hz)))
  rw [homap]
  rfl

theorem arch_from_json_unfold (t : Option Str) (entries : List (Str × Json)) :
    Archive.from_json_dict (Json.obj
      [(("funds").data, Json.obj entries),
       (("title").data, optStrJson t)]) =
    (do
      let tt ← readOptStr (optStrJson t)
      let fds ← omapM readFundEntry entries
      some (⟨tt, fds⟩ : Archive)) := rfl

theorem arch_dump_unfold (a : Archive) :
    Archive.dumped_json a =
      Json.obj [(("funds").data, Json.obj ((sortKeyedOpt a.funds).map
                  (fun p => (optStr p.1, Json.null)))),
                (("title").data, optStrJson a.title)] := by
  have h : Archive.dumped_json a =
      Json.obj [(("funds").data, Json.obj (dumpSort (fun x y => decide (x.1 ≤ y.1))
                  (jsonSortKeysObj (a.funds.map (fun p =>
                    (optStr p.1, Json.null)))))),
                (("title").data, jsonSortKeys (optStrJson a.title))] := rfl
  rw [h, jsonSortKeysObj_eq_map, List.map_map]
  simp only [jsonSortKeys_optStrJson]
  rw [dumpSort_map]
  rfl

theorem arch_roundtrip (a : Archive) (hkeys : ∀ q ∈ a.funds, q.1 ≠ some []) :
    Archive.from_json_dict (Archive.dumped_json a) =
      some ⟨a.title, (sortKeyedOpt a.funds).map (fun q =>
        (q.1, (⟨q.1, none⟩ : FundLink)))⟩ := by
  rw [arch_dump_unfold, arch_from_json_unfold, readOptStr_roundtrip]
  simp only [Option.bind_eq_bind, Option.some_bind]
  rw [omapM_map]
  have homap : omapM (fun x : Option Str × FundLink =>
      readFundEntry (optStr x.1, Json.null)) (sortKeyedOpt a.funds) =
      some ((sortKeyedOpt a.funds).map (fun q => (q.1, (⟨q.1, none⟩ : FundLink)))) :=
    omapM_eq_map (fun q hq => readFundEntry_null (hkeys q (mem_dumpSort.mp hq)))
  rw [homap]
  rfl

/-- `sort_keys=True` does not reorder the root document: it is a JSON
list of title strings, not a dict. -/
theorem root_dump_unfold (al : ArchiveList) :
    ArchiveList.dumped_json al = ArchiveList.get_json_dict al := by
  have h : ArchiveList.dumped_json al =
      Json.arr (jsonSortKeysArr (al.archives.map (fun p => optStrJson p.1))) := rfl
  rw [h, jsonSortKeysArr_eq_map, List.map_map]
  have hfe : (jsonSortKeys ∘ fun p : Option Str × ArchiveLink => optStrJson p.1) =
      (fun p : Option Str × ArchiveLink => optStrJson p.1) := by
    funext p
    exact jsonSortKeys_optStrJson p.1
  rw [hfe]
  rfl

theorem root_from_json_unfold (l : List Json) (base : FPath) :
    ArchiveList.from_json_dict (Json.arr l) base =
    (do
      let archives ← omapM readRootListEntry l
      some (⟨some base, archives⟩ : ArchiveList)) := rfl

theorem root_roundtrip (al : ArchiveList) (base : FPath)
    (hkeys : ∀ p ∈ al.archives, p.1 ≠ some []) :
    ArchiveList.from_json_dict (ArchiveList.get_json_dict al) base =
      some ⟨some base,
            al.archives.map (fun p => (p.1, (⟨p.1, none⟩ : ArchiveLink)))⟩ := by
  rw [show ArchiveList.get_json_dict al =
      Json.arr (al.archives.map (fun p => optStrJson p.1)) from rfl]
  rw [root_from_json_unfold]
  rw [omapM_map]
  have homap : omapM (fun x => readRootListEntry (optStrJson x.1)) al.archives =
      some (al.archives.map (fun p => (p.1, (⟨p.1, none⟩ : ArchiveLink)))) :=
    omapM_eq_map (fun p hp => readRootListEntry_key (hkeys p hp))
  rw [homap]
  rfl

/-! Analysis scaffolding for the writer: the written file system in
closed form, on well-formed (hence fully materialized) trees. -/

def archOf (p : Option Str × ArchiveLink) : Archive :=
  (p.2.loaded_archive).getD ⟨none, []⟩

def fundOf (q : Option Str × FundLink) : Fund :=
  (q.2.loaded_fund).getD ⟨none, [], none⟩

def invOf (z : Option Str × InventoryLink) : Inventory :=
  (z.2.loaded_inventory).getD ⟨none, [], none⟩

def adComp (hashT : Str → Str) (k : Option Str) : Str :=
  ("archive").data ++ hashT (optStr k)

def fdComp (k : Option Str) : Str := ("fund").data ++ optStr k

def invComp (k : Option Str) : Str :=
  ("inventory").data ++ optStr k ++ (".json").data

def listJson : Str := ("list.json").data

def invEntryF (out : FPath) (adir fdir : Str) (z : Option Str × InventoryLink) :
    FPath × Json :=
  (out ++ [adir, fdir, invComp z.2.number], invDump (invOf z))

def fundBlockF (out : FPath) (adir : Str) (q : Option Str × FundLink) : FS :=
  (out ++ [adir, fdComp q.2.number, listJson], Fund.dumped_json (fundOf q)) ::
  (fundOf q).inventories.map (invEntryF out adir (fdComp q.2.number))

def archBlockF (hashT : Str → Str) (out : FPath) (p : Option Str × ArchiveLink) : FS :=
  (out ++ [adComp hashT p.2.title, listJson], Archive.dumped_json (archOf p)) ::
  ((archOf p).funds.map (fundBlockF out (adComp hashT p.2.title))).flatten

def writeFSF (hashT : Str → Str) (al : ArchiveList) (out : FPath) : FS :=
  (out ++ [listJson], ArchiveList.dumped_json al) ::
  (al.archives.map (archBlockF hashT out)).flatten

theorem WFInvLink_loaded {z : Option Str × InventoryLink} (h : WFInvLink z) :
    ∃ inv, z.2.loaded_inventory = some inv ∧ inv.number ≠ some [] ∧
      Inventory.dump_ok inv ∧
      (inv.items.map (fun w => jsonKeyOpt w.1)).Nodup := by
  obtain ⟨h1, h2, h3⟩ := h
  cases hz : z.2.loaded_inventory with
  | none => rw [hz] at h3; exact h3.elim
  | some inv => rw [hz] at h3; exact ⟨inv, rfl, h3⟩

theorem WFFundLink_loaded {q : Option Str × FundLink} (h : WFFundLink q) :
    ∃ f, q.2.loaded_fund = some f ∧ f.number = q.1 ∧
      (f.inventories.map Prod.fst).Nodup ∧ ∀ z ∈ f.inventories, WFInvLink z := by
  obtain ⟨h1, h2, h3⟩ := h
  cases hq : q.2.loaded_fund with
  | none => rw [hq] at h3; exact h3.elim
  | some f => rw [hq] at h3; exact ⟨f, rfl, h3⟩

theorem WFArchLink_loaded {p : Option Str × ArchiveLink} (h : WFArchLink p) :
    ∃ a, p.2.loaded_archive = some a ∧ a.title = p.1 ∧
      (a.funds.map Prod.fst).Nodup ∧ ∀ q ∈ a.funds, WFFundLink q := by
  obtain ⟨h1, h2, h3⟩ := h
  cases hp : p.2.loaded_archive with
  | none => rw [hp] at h3; exact h3.elim
  | some a => rw [hp] at h3; exact ⟨a, rfl, h3⟩

theorem writeInvEntry_eq {out : FPath} {adir fdir : Str}
    {z : Option Str × InventoryLink} (h : WFInvLink z) :
    writeInvEntry out adir fdir z = some (invEntryF out adir fdir z) := by
  obtain ⟨inv, hz, _, hok, _⟩ := WFInvLink_loaded h
  unfold writeInvEntry invEntryF invOf
  rw [hz]
  simp only [Option.bind_eq_bind, Option.some_bind, Option.getD_some]
  rw [show Inventory.dumped_json inv = some (invDump inv) from if_pos hok]
  rfl

theorem writeFundBlock_eq {out : FPath} {adir : Str}
    {q : Option Str × FundLink} (h : WFFundLink q) :
    writeFundBlock out adir q = some (fundBlockF out adir q) := by
  obtain ⟨f, hq, _, _, hz⟩ := WFFundLink_loaded h
  unfold writeFundBlock fundBlockF fundOf
  rw [hq]
  simp only [Option.bind_eq_bind, Option.some_bind, Option.getD_some]
  rw [omapM_eq_map (fun z hzm => writeInvEntry_eq (hz z hzm))]
  rfl

theorem writeArchBlock_eq {hashT : Str → Str} {out : FPath}
    {p : Option Str × ArchiveLink} (h : WFArchLink p) :
    writeArchBlock hashT out p = some (archBlockF hashT out p) := by
  obtain ⟨a, hp, _, _, hq⟩ := WFArchLink_loaded h
  unfold writeArchBlock archBlockF archOf
  rw [hp]
  simp only [Option.bind_eq_bind, Option.some_bind, Option.getD_some]
  rw [omapM_eq_map (fun q hqm => writeFundBlock_eq (hq q hqm))]
  rfl

theorem writer_eq {hashT : Str → Str} {al : ArchiveList} {out : FPath}
    (h : WFList al) :
    write_archives_files hashT al out = some (writeFSF hashT al out) := by
  obtain ⟨_, hp⟩ := h
  unfold write_archives_files writeFSF
  rw [omapM_eq_map (fun p hpm => writeArchBlock_eq (hp p hpm))]
  rfl

/-! Path component injectivity and shape lemmas. -/

theorem optStr_inj {k k' : Option Str} (hk : k ≠ some []) (hk' : k' ≠ some [])
    (h : optStr k = optStr k') : k = k' := by
  cases k with
  | none =>
    cases k' with
    | none => rfl
    | some s =>
      have hs : ([] : Str) = s := h
      exact absurd (congrArg some hs.symm) hk'
  | some s =>
    cases k' with
    | none =>
      have hs : s = ([] : Str) := h
      exact absurd (congrArg some hs) hk
    | some s' =>
      have hs : s = s' := h
      exact congrArg some hs

theorem adComp_inj {hashT : Str → Str} (hinj : Function.Injective hashT)
    {k k' : Option Str} (hk : k ≠ some []) (hk' : k' ≠ some [])
    (h : adComp hashT k = adComp hashT k') : k = k' :=
  optStr_inj hk hk' (hinj (List.append_cancel_left h))

theorem fdComp_inj {k k' : Option Str} (hk : k ≠ some []) (hk' : k' ≠ some [])
    (h : fdComp k = fdComp k') : k = k' :=
  optStr_inj hk hk' (List.append_cancel_left h)

theorem invComp_inj {k k' : Option Str} (hk : k ≠ some []) (hk' : k' ≠ some [])
    (h : invComp k = invComp k') : k = k' := by
  unfold invComp at h
  rw [List.append_assoc, List.append_assoc] at h
  exact optStr_inj hk hk'
    (List.append_cancel_right (List.append_cancel_left h))

theorem listJson_ne_invComp (k : Option Str) : listJson ≠ invComp k := by
  intro h
  have h0 := congrArg List.head? h
  rw [show listJson.head? = some 'l' from rfl] at h0
  rw [show (invComp k).head? = some 'i' from rfl] at h0
  simp at h0

theorem eq_of_fst_eq_of_nodup {κ α : Type} {l : List (κ × α)}
    (hnd : (l.map Prod.fst).Nodup) {x y : κ × α}
    (hx : x ∈ l) (hy : y ∈ l) (h : x.1 = y.1) : x = y := by
  induction l with
  | nil => simp at hx
  | cons p rest ih =>
    simp only [List.map_cons, List.nodup_cons] at hnd
    rcases List.mem_cons.mp hx with hx1 | hx1 <;>
      rcases List.mem_cons.mp hy with hy1 | hy1
    · rw [hx1, hy1]
    · exfalso
      apply hnd.1
      rw [hx1] at h
      rw [h]
      exact List.mem_map.mpr ⟨y, hy1, rfl⟩
    · exfalso
      apply hnd.1
      rw [hy1] at h
      rw [← h]
      exact List.mem_map.mpr ⟨x, hx1, rfl⟩
    · exact ih hnd.2 hx1 hy1

theorem mem_fundBlockF_shape {out : FPath} {adir : Str} {q : Option Str × FundLink}
    {x : FPath × Json} (hx : x ∈ fundBlockF out adir q) :
    ∃ c, x.1 = out ++ [adir, fdComp q.2.number, c] := by
  unfold fundBlockF at hx
  rcases List.mem_cons.mp hx with h | h
  · exact ⟨listJson, by rw [h]⟩
  · obtain ⟨z, _, hzx⟩ := List.mem_map.mp h
    exact ⟨invComp z.2.number, by rw [← hzx]; rfl⟩

theorem mem_archBlockF_shape {hashT : Str → Str} {out : FPath}
    {p : Option Str × ArchiveLink} {x : FPath × Json}
    (hx : x ∈ archBlockF hashT out p) :
    x.1 = out ++ [adComp hashT p.2.title, listJson] ∨
    ∃ q ∈ (archOf p).funds, ∃ c,
      x.1 = out ++ [adComp hashT p.2.title, fdComp q.2.number, c] := by
  unfold archBlockF at hx
  rcases List.mem_cons.mp hx with h | h
  · left; rw [h]
  · right
    rw [← List.flatMap_def] at h
    obtain ⟨q, hq, hxq⟩ := List.mem_flatMap.mp h
    obtain ⟨c, hc⟩ := mem_fundBlockF_shape hxq
    exact ⟨q, hq, c, hc⟩

theorem mem_archBlockF_head {hashT : Str → Str} {out : FPath}
    {p : Option Str × ArchiveLink} {x : FPath × Json}
    (hx : x ∈ archBlockF hashT out p) :
    ∃ r, x.1 = out ++ adComp hashT p.2.title :: r := by
  rcases mem_archBlockF_shape hx with h | ⟨q, _, c, h⟩
  · exact ⟨[listJson], h⟩
  · exact ⟨[fdComp q.2.number, c], h⟩

theorem listJson_ne_adComp (hashT : Str → Str) (k : Option Str) :
    listJson ≠ adComp hashT k := by
  intro h
  have h0 := congrArg List.head? h
  rw [show listJson.head? = some 'l' from rfl] at h0
  rw [show (adComp hashT k).head? = some 'a' from rfl] at h0
  simp at h0

theorem fundBlockF_paths_nodup {out : FPath} {adir : Str} {q : Option Str × FundLink}
    (hwf : WFFundLink q) : ((fundBlockF out adir q).map Prod.fst).Nodup := by
  obtain ⟨f, hq, hnum, hnd, hz⟩ := WFFundLink_loaded hwf
  have hfo : fundOf q = f := by unfold fundOf; rw [hq]; rfl
  unfold fundBlockF
  rw [hfo]
  simp only [List.map_cons, List.map_map]
  rw [List.nodup_cons]
  constructor
  · intro hmem
    obtain ⟨z, _, hze⟩ := List.mem_map.mp hmem
    have hze' : out ++ [adir, fdComp q.2.number, invComp z.2.number] =
        out ++ [adir, fdComp q.2.number, listJson] := hze
    have h3 := List.append_cancel_left hze'
    simp only [List.cons.injEq, and_true, true_and, eq_self_iff_true] at h3
    exact listJson_ne_invComp z.2.number h3.symm
  · apply List.Nodup.map_on
    · intro x hx y hy hxy
      have hxy' : out ++ [adir, fdComp q.2.number, invComp x.2.number] =
          out ++ [adir, fdComp q.2.number, invComp y.2.number] := hxy
      have h3 := List.append_cancel_left hxy'
      simp only [List.cons.injEq, and_true, true_and, eq_self_iff_true] at h3
      obtain ⟨hx1, hx2, _⟩ := hz x hx
      obtain ⟨hy1, hy2, _⟩ := hz y hy
      have hkeq : x.1 = y.1 := by
        rw [← hx2, ← hy2]
        exact invComp_inj (hx2 ▸ hx1) (hy2 ▸ hy1) h3
      exact eq_of_fst_eq_of_nodup hnd hx hy hkeq
    · exact List.Nodup.of_map _ hnd

theorem archBlockF_paths_nodup {hashT : Str → Str} {out : FPath}
    {p : Option Str × ArchiveLink} (hwf : WFArchLink p) :
    ((archBlockF hashT out p).map Prod.fst).Nodup := by
  obtain ⟨a, hp, hti, hnd, hq⟩ := WFArchLink_loaded hwf
  have hao : archOf p = a := by unfold archOf; rw [hp]; rfl
  unfold archBlockF
  rw [hao]
  simp only [List.map_cons]
  rw [← List.flatMap_def, List.map_flatMap, List.nodup_cons]
  constructor
  · intro hmem
    obtain ⟨q, hqm, hxm⟩ := List.mem_flatMap.mp hmem
    obtain ⟨x, hx, hxe⟩ := List.mem_map.mp hxm
    obtain ⟨c, hc⟩ := mem_fundBlockF_shape hx
    rw [hc] at hxe
    have h3 := List.append_cancel_left hxe
    simp at h3
  · rw [List.nodup_flatMap]
    constructor
    · intro q hqm
      exact fundBlockF_paths_nodup (hq q hqm)
    · have hpw : a.funds.Pairwise (fun x y => x.1 ≠ y.1) := by
        rw [List.Nodup, List.pairwise_map] at hnd
        exact hnd
      apply List.Pairwise.imp_of_mem ?_ hpw
      intro q q' hqm hqm' hne
      intro path hp1 hp2
      obtain ⟨x, hx, hxe⟩ := List.mem_map.mp hp1
      obtain ⟨y, hy, hye⟩ := List.mem_map.mp hp2
      obtain ⟨c, hc⟩ := mem_fundBlockF_shape hx
      obtain ⟨c', hc'⟩ := mem_fundBlockF_shape hy
      have heq : out ++ [adComp hashT p.2.title, fdComp q.2.number, c] =
          out ++ [adComp hashT p.2.title, fdComp q'.2.number, c'] := by
        rw [← hc, ← hc', hxe, hye]
      have h3 := List.append_cancel_left heq
      simp only [List.cons.injEq, and_true, true_and, eq_self_iff_true] at h3
      obtain ⟨_, hq2, _⟩ := hq q hqm
      obtain ⟨_, hq2', _⟩ := hq q' hqm'
      apply hne
      rw [← hq2, ← hq2']
      exact fdComp_inj (hq2 ▸ (hq q hqm).1) (hq2' ▸ (hq q' hqm').1) h3.1

theorem writeFSF_paths_nodup {hashT : Str → Str} (hinj : Function.Injective hashT)
    {al : ArchiveList} {out : FPath} (hwf : WFList al) :
    ((writeFSF hashT al out).map Prod.fst).Nodup := by
  obtain ⟨hnd, hp⟩ := hwf
  unfold writeFSF
  simp only [List.map_cons]
  rw [← List.flatMap_def, List.map_flatMap, List.nodup_cons]
  constructor
  · intro hmem
    obtain ⟨p, hpm, hxm⟩ := List.mem_flatMap.mp hmem
    obtain ⟨x, hx, hxe⟩ := List.mem_map.mp hxm
    obtain ⟨r, hr⟩ := mem_archBlockF_head hx
    rw [hr] at hxe
    have h3 := List.append_cancel_left hxe
    have h4 : adComp hashT p.2.title = listJson := (List.cons.injEq .. ▸ h3).1
    exact listJson_ne_adComp hashT p.2.title h4.symm
  · rw [List.nodup_flatMap]
    constructor
    · intro p hpm
      exact archBlockF_paths_nodup (hp p hpm)
    · have hpw : al.archives.Pairwise (fun x y => x.1 ≠ y.1) := by
        rw [List.Nodup, List.pairwise_map] at hnd
        exact hnd
      apply List.Pairwise.imp_of_mem ?_ hpw
      intro p p' hpm hpm' hne
      intro path hp1 hp2
      obtain ⟨x, hx, hxe⟩ := List.mem_map.mp hp1
      obtain ⟨y, hy, hye⟩ := List.mem_map.mp hp2
      obtain ⟨r, hr⟩ := mem_archBlockF_head hx
      obtain ⟨r', hr'⟩ := mem_archBlockF_head hy
      have heq : out ++ adComp hashT p.2.title :: r =
          out ++ adComp hashT p'.2.title :: r' := by
        rw [← hr, ← hr', hxe, hye]
      have h3 := List.append_cancel_left heq
      have h4 : adComp hashT p.2.title = adComp hashT p'.2.title :=
        (List.cons.injEq .. ▸ h3).1
      obtain ⟨hk1, hk2, _⟩ := hp p hpm
      obtain ⟨hk1', hk2', _⟩ := hp p' hpm'
      apply hne
      rw [← hk2, ← hk2']
      exact adComp_inj hinj (hk2 ▸ hk1) (hk2' ▸ hk1') h4

/-! Membership of each written file in the closed-form file system, and
the resulting `fsRead` facts. -/

theorem mem_writeFSF_root {hashT : Str → Str} {al : ArchiveList} {out : FPath} :
    (out ++ [listJson], ArchiveList.dumped_json al) ∈ writeFSF hashT al out := by
  unfold writeFSF
  exact List.mem_cons_self _ _

theorem mem_writeFSF_arch {hashT : Str → Str} {al : ArchiveList} {out : FPath}
    {p : Option Str × ArchiveLink} (hpm : p ∈ al.archives) :
    (out ++ [adComp hashT p.2.title, listJson], Archive.dumped_json (archOf p)) ∈
      writeFSF hashT al out := by
  unfold writeFSF
  apply List.mem_cons_of_mem
  rw [← List.flatMap_def]
  apply List.mem_flatMap.mpr
  refine ⟨p, hpm, ?_⟩
  unfold archBlockF
  exact List.mem_cons_self _ _

theorem mem_writeFSF_fund {hashT : Str → Str} {al : ArchiveList} {out : FPath}
    {p : Option Str × ArchiveLink} (hpm : p ∈ al.archives)
    {q : Option Str × FundLink} (hqm : q ∈ (archOf p).funds) :
    (out ++ [adComp hashT p.2.title, fdComp q.2.number, listJson],
      Fund.dumped_json (fundOf q)) ∈ writeFSF hashT al out := by
  unfold writeFSF
  apply List.mem_cons_of_mem
  rw [← List.flatMap_def]
  apply List.mem_flatMap.mpr
  refine ⟨p, hpm, ?_⟩
  unfold archBlockF
  apply List.mem_cons_of_mem
  rw [← List.flatMap_def]
  apply List.mem_flatMap.mpr
  refine ⟨q, hqm, ?_⟩
  unfold fundBlockF
  exact List.mem_cons_self _ _

theorem mem_writeFSF_inv {hashT : Str → Str} {al : ArchiveList} {out : FPath}
    {p : Option Str × ArchiveLink} (hpm : p ∈ al.archives)
    {q : Option Str × FundLink} (hqm : q ∈ (archOf p).funds)
    {z : Option Str × InventoryLink} (hzm : z ∈ (fundOf q).inventories) :
    (out ++ [adComp hashT p.2.title, fdComp q.2.number, invComp z.2.number],
      invDump (invOf z)) ∈ writeFSF hashT al out := by
  unfold writeFSF
  apply List.mem_cons_of_mem
  rw [← List.flatMap_def]
  apply List.mem_flatMap.mpr
  refine ⟨p, hpm, ?_⟩
  unfold archBlockF
  apply List.mem_cons_of_mem
  rw [← List.flatMap_def]
  apply List.mem_flatMap.mpr
  refine ⟨q, hqm, ?_⟩
  unfold fundBlockF
  apply List.mem_cons_of_mem
  apply List.mem_map.mpr
  exact ⟨z, hzm, rfl⟩

theorem emapM_map {f : α → β} {g : β → Except ε γ} :
    ∀ (l : List α), emapM g (l.map f) = emapM (fun x => g (f x)) l := by
  intro l
  induction l with
  | nil => rfl
  | cons x xs ih =>
    simp only [List.map_cons, emapM]
    rw [ih]

/-! The tree obtained by reading the written files back: every node
reloaded, every mapping reordered into its dumped key order (the root
document is a JSON list, not a dict, and keeps its order), item map
keys passed through the dump-time `jsonKeyOpt`, item `data` objects
key-sorted. -/

def reconInv (inv : Inventory) : Inventory :=
  ⟨inv.number,
   (sortItems inv.items).map (fun w =>
     ((some (jsonKeyOpt w.1) : Option Str), itemRT w.2)),
   inv.annot⟩

def reconInvLinkE (z : Option Str × InventoryLink) : Option Str × InventoryLink :=
  (z.1, ⟨z.1, some (reconInv (invOf z))⟩)

def reconFund (f : Fund) : Fund :=
  ⟨f.number, (sortKeyedOpt f.inventories).map reconInvLinkE, f.annot⟩

def reconFundLinkE (q : Option Str × FundLink) : Option Str × FundLink :=
  (q.1, ⟨q.1, some (reconFund (fundOf q))⟩)

def reconArch (a : Archive) : Archive :=
  ⟨a.title, (sortKeyedOpt a.funds).map reconFundLinkE⟩

def reconArchLinkE (p : Option Str × ArchiveLink) : Option Str × ArchiveLink :=
  (p.1, ⟨p.1, some (reconArch (archOf p))⟩)

def reconList (al : ArchiveList) (out : FPath) : ArchiveList :=
  ⟨some out, al.archives.map reconArchLinkE⟩

theorem inv_roundtrip' (inv : Inventory) (hn : inv.number ≠ some []) :
    Inventory.from_json_dict (invDump inv) = some (reconInv inv) :=
  inv_roundtrip inv hn

theorem fetchInvEntry_ok {hashT : Str → Str} {out : FPath} {fs : FS}
    {atitle fnum : Option Str} {z : Option Str × InventoryLink}
    (hwfz : WFInvLink z)
    (hread : fsRead (out ++ [adComp hashT atitle, fdComp fnum, invComp z.1]) fs =
      some (invDump (invOf z))) :
    fetchInvEntry hashT (some out) atitle fnum fs (z.1, (⟨z.1, none⟩ : InventoryLink)) =
      Except.ok (reconInvLinkE z) := by
  obtain ⟨inv, hzl, hinvn, _, _⟩ := WFInvLink_loaded hwfz
  have hio : invOf z = inv := by unfold invOf; rw [hzl]; rfl
  have hfetch : InventoryLink.fetch hashT (some out) atitle fnum
      (⟨z.1, none⟩ : InventoryLink) fs =
      (match fsRead (out ++ [adComp hashT atitle, fdComp fnum, invComp z.1]) fs with
       | none => Except.error ()
       | some j =>
         match Inventory.from_json_dict j with
         | none => Except.error ()
         | some inv0 => Except.ok (inv0, (⟨z.1, some inv0⟩ : InventoryLink))) := rfl
  unfold fetchInvEntry
  rw [hfetch, hread]
  rw [hio]
  simp only []
  rw [inv_roundtrip' inv hinvn]
  unfold reconInvLinkE
  rw [hio]
  rfl

theorem except_ok_bind {α β : Type} (x : α) (k : α → Except Unit β) :
    (Except.ok x >>= k : Except Unit β) = k x := rfl

theorem fetchFundEntry_ok {hashT : Str → Str} {out : FPath} {fs : FS}
    {atitle : Option Str} {q : Option Str × FundLink}
    (hwfq : WFFundLink q)
    (hreadf : fsRead (out ++ [adComp hashT atitle, fdComp q.1, listJson]) fs =
      some (Fund.dumped_json (fundOf q)))
    (hreadi : ∀ z ∈ (fundOf q).inventories,
      fsRead (out ++ [adComp hashT atitle, fdComp q.1, invComp z.1]) fs =
        some (invDump (invOf z))) :
    fetchFundEntry hashT (some out) atitle fs (q.1, (⟨q.1, none⟩ : FundLink)) =
      Except.ok (reconFundLinkE q) := by
  obtain ⟨f, hql, hfn, _, hz⟩ := WFFundLink_loaded hwfq
  have hfo : fundOf q = f := by unfold fundOf; rw [hql]; rfl
  rw [hfo] at hreadi
  have hkeys : ∀ z ∈ f.inventories, z.1 ≠ some [] := fun z hzm => (hz z hzm).1
  have hfnum : f.number ≠ some [] := by rw [hfn]; exact hwfq.1
  have hmap : ∀ z ∈ sortKeyedOpt f.inventories,
      fetchInvEntry hashT (some out) atitle f.number fs
        (z.1, (⟨z.1, none⟩ : InventoryLink)) = Except.ok (reconInvLinkE z) := by
    intro z hzm
    have hzm2 : z ∈ f.inventories := mem_dumpSort.mp hzm
    rw [hfn]
    exact fetchInvEntry_ok (hz z hzm2) (hreadi z hzm2)
  have hfa : Fund.fetch_all hashT (some out) atitle
      (⟨f.number,
        (sortKeyedOpt f.inventories).map (fun z =>
          (z.1, (⟨z.1, none⟩ : InventoryLink))),
        f.annot⟩ : Fund) fs = Except.ok (reconFund f) := by
    unfold Fund.fetch_all
    simp only []
    rw [emapM_map]
    have hemap : emapM (fun x : Option Str × InventoryLink =>
        fetchInvEntry hashT (some out) atitle f.number fs
          (x.1, (⟨x.1, none⟩ : InventoryLink))) (sortKeyedOpt f.inventories) =
        Except.ok ((sortKeyedOpt f.inventories).map reconInvLinkE) :=
      emapM_eq_map hmap
    rw [hemap]
    rfl
  have hfetch : FundLink.fetch hashT (some out) atitle
      (⟨q.1, none⟩ : FundLink) fs =
      (match fsRead (out ++ [adComp hashT atitle, fdComp q.1, listJson]) fs with
       | none => Except.error ()
       | some j =>
         match Fund.from_json_dict j with
         | none => Except.error ()
         | some f0 => Except.ok (f0, (⟨q.1, some f0⟩ : FundLink))) := rfl
  unfold fetchFundEntry
  rw [hfetch, hreadf]
  rw [hfo]
  simp only []
  rw [fund_roundtrip f hfnum hkeys]
  simp only []
  rw [except_ok_bind]
  simp only []
  rw [hfa]
  rw [except_ok_bind]
  unfold reconFundLinkE
  rw [hfo]
  rfl

theorem fetchArchEntry_ok {hashT : Str → Str} {out : FPath} {fs : FS}
    {p : Option Str × ArchiveLink}
    (hwfp : WFArchLink p)
    (hreada : fsRead (out ++ [adComp hashT p.1, listJson]) fs =
      some (Archive.dumped_json (archOf p)))
    (hreadf : ∀ q ∈ (archOf p).funds,
      fsRead (out ++ [adComp hashT p.1, fdComp q.1, listJson]) fs =
        some (Fund.dumped_json (fundOf q)))
    (hreadi : ∀ q ∈ (archOf p).funds, ∀ z ∈ (fundOf q).inventories,
      fsRead (out ++ [adComp hashT p.1, fdComp q.1, invComp z.1]) fs =
        some (invDump (invOf z))) :
    fetchArchEntry hashT (some out) fs (p.1, (⟨p.1, none⟩ : ArchiveLink)) =
      Except.ok (reconArchLinkE p) := by
  obtain ⟨a, hpl, hat, _, hq⟩ := WFArchLink_loaded hwfp
  have hao : archOf p = a := by unfold archOf; rw [hpl]; rfl
  rw [hao] at hreadf hreadi
  have hkeys : ∀ q ∈ a.funds, q.1 ≠ some [] := fun q hqm => (hq q hqm).1
  have hmap : ∀ q ∈ sortKeyedOpt a.funds,
      fetchFundEntry hashT (some out) a.title fs
        (q.1, (⟨q.1, none⟩ : FundLink)) = Except.ok (reconFundLinkE q) := by
    intro q hqm
    have hqm2 : q ∈ a.funds := mem_dumpSort.mp hqm
    rw [hat]
    exact fetchFundEntry_ok (hq q hqm2) (hreadf q hqm2) (hreadi q hqm2)
  have haa : Archive.fetch_all hashT (some out)
      (⟨a.title,
        (sortKeyedOpt a.funds).map (fun q =>
          (q.1, (⟨q.1, none⟩ : FundLink)))⟩ : Archive) fs =
      Except.ok (reconArch a) := by
    unfold Archive.fetch_all
    simp only []
    rw [emapM_map]
    have hemap : emapM (fun x : Option Str × FundLink =>
        fetchFundEntry hashT (some out) a.title fs
          (x.1, (⟨x.1, none⟩ : FundLink))) (sortKeyedOpt a.funds) =
        Except.ok ((sortKeyedOpt a.funds).map reconFundLinkE) :=
      emapM_eq_map hmap
    rw [hemap]
    rfl
  have hfetch : ArchiveLink.fetch hashT (some out)
      (⟨p.1, none⟩ : ArchiveLink) fs =
      (match fsRead (out ++ [adComp hashT p.1, listJson]) fs with
       | none => Except.error ()
       | some j =>
         match Archive.from_json_dict j with
         | none => Except.error ()
         | some a0 => Except.ok (a0, (⟨p.1, some a0⟩ : ArchiveLink))) := rfl
  unfold fetchArchEntry
  rw [hfetch, hreada]
  rw [hao]
  simp only []
  rw [arch_roundtrip a hkeys]
  simp only []
  rw [except_ok_bind]
  simp only []
  rw [haa]
  rw [except_ok_bind]
  unfold reconArchLinkE
  rw [hao]
  rfl

theorem read_back_writeFSF {hashT : Str → Str} (hinj : Function.Injective hashT)
    {al : ArchiveList} {out : FPath} (hwf : WFList al) :
    read_back hashT out (writeFSF hashT al out) = Except.ok (reconList al out) := by
  have hnd : ((writeFSF hashT al out).map Prod.fst).Nodup :=
    writeFSF_paths_nodup hinj hwf
  have hroot : fsRead (out ++ [("list.json").data]) (writeFSF hashT al out) =
      some (ArchiveList.dumped_json al) :=
    fsRead_eq_of_mem_nodup mem_writeFSF_root hnd
  have hkeys : ∀ p ∈ al.archives, p.1 ≠ some [] := fun p hpm => (hwf.2 p hpm).1
  have hmapA : ∀ p ∈ al.archives,
      fetchArchEntry hashT (some out) (writeFSF hashT al out)
        (p.1, (⟨p.1, none⟩ : ArchiveLink)) = Except.ok (reconArchLinkE p) := by
    intro p hpm
    have hwfp := hwf.2 p hpm
    obtain ⟨a, hpl, _, _, hqWF⟩ := WFArchLink_loaded hwfp
    have hao : archOf p = a := by unfold archOf; rw [hpl]; rfl
    have ht : p.2.title = p.1 := hwfp.2.1
    apply fetchArchEntry_ok hwfp
    · have h := fsRead_eq_of_mem_nodup (mem_writeFSF_arch hpm) hnd
      rw [ht] at h
      exact h
    · intro q hqm
      have hwfq : WFFundLink q := hqWF q (by rw [← hao]; exact hqm)
      have hqn : q.2.number = q.1 := hwfq.2.1
      have h := fsRead_eq_of_mem_nodup (mem_writeFSF_fund hpm hqm) hnd
      rw [ht, hqn] at h
      exact h
    · intro q hqm z hzm
      have hwfq : WFFundLink q := hqWF q (by rw [← hao]; exact hqm)
      obtain ⟨f, hql, _, _, hzWF⟩ := WFFundLink_loaded hwfq
      have hfo : fundOf q = f := by unfold fundOf; rw [hql]; rfl
      have hwfz : WFInvLink z := hzWF z (by rw [← hfo]; exact hzm)
      have hqn : q.2.number = q.1 := hwfq.2.1
      have hzn : z.2.number = z.1 := hwfz.2.1
      have h := fsRead_eq_of_mem_nodup (mem_writeFSF_inv hpm hqm hzm) hnd
      rw [ht, hqn, hzn] at h
      exact h
  have hfaA : ArchiveList.fetch_all hashT
      (⟨some out,
        al.archives.map (fun p => (p.1, (⟨p.1, none⟩ : ArchiveLink)))⟩ : ArchiveList)
      (writeFSF hashT al out) = Except.ok (reconList al out) := by
    unfold ArchiveList.fetch_all
    simp only []
    rw [emapM_map]
    have hemap : emapM (fun x : Option Str × ArchiveLink =>
        fetchArchEntry hashT (some out) (writeFSF hashT al out)
          (x.1, (⟨x.1, none⟩ : ArchiveLink))) al.archives =
        Except.ok (al.archives.map reconArchLinkE) := emapM_eq_map hmapA
    rw [hemap]
    rfl
  unfold read_back
  rw [hroot]
  simp only []
  rw [except_ok_bind]
  rw [root_dump_unfold, root_roundtrip al out hkeys]
  simp only []
  rw [except_ok_bind]
  exact hfaA

/-! ## Claim C1: the write/read round trip -/

/-- Observable equality on item entries: the five scalar item fields
coincide, and the free-form `data` value comes back with every nested
object's keys sorted — the same mapping content, hence equal as a
Python value, where dict comparison ignores entry order.  (The
surrounding map key is the dump-time coercion of the original and is
not among the claimed observables.) -/
def ObsEqItem (v w : Option Str × Item) : Prop :=
  v.2.item_number = w.2.item_number ∧ v.2.item_annot = w.2.item_annot ∧
  v.2.data = jsonSortKeys w.2.data ∧ v.2.start_year = w.2.start_year ∧
  v.2.end_year = w.2.end_year ∧ v.2.url = w.2.url

def ObsEqInvLink (v w : Option Str × InventoryLink) : Prop :=
  v.1 = w.1 ∧ v.2.number = w.2.number ∧
  ∃ iv iw, v.2.loaded_inventory = some iv ∧ w.2.loaded_inventory = some iw ∧
    iv.number = iw.number ∧ iv.annot = iw.annot ∧
    List.Forall₂ ObsEqItem iv.items (sortItems iw.items)

def ObsEqFundLink (v w : Option Str × FundLink) : Prop :=
  v.1 = w.1 ∧ v.2.number = w.2.number ∧
  ∃ fv fw, v.2.loaded_fund = some fv ∧ w.2.loaded_fund = some fw ∧
    fv.number = fw.number ∧ fv.annot = fw.annot ∧
    List.Forall₂ ObsEqInvLink fv.inventories (sortKeyedOpt fw.inventories)

def ObsEqArchLink (v w : Option Str × ArchiveLink) : Prop :=
  v.1 = w.1 ∧ v.2.title = w.2.title ∧
  ∃ av aw, v.2.loaded_archive = some av ∧ w.2.loaded_archive = some aw ∧
    av.title = aw.title ∧
    List.Forall₂ ObsEqFundLink av.funds (sortKeyedOpt aw.funds)

/-- Observable equality of a read-back tree against the original: the
same archives in the original order (the root document is a list);
below each node, the same children with equal titles, numbers,
annotations and item fields, matched up against the original children
reordered into dumped-key order — a permutation of the original
(`dumpSort_perm`).  Materialization state is not constrained. -/
def ObsEq (al1 al2 : ArchiveList) : Prop :=
  List.Forall₂ ObsEqArchLink al1.archives al2.archives

theorem forall₂_map_self {α β : Type} {R : β → α → Prop} {g : α → β} :
    ∀ {l : List α}, (∀ x ∈ l, R (g x) x) → List.Forall₂ R (l.map g) l := by
  intro l
  induction l with
  | nil => intro _; exact List.Forall₂.nil
  | cons x xs ih =>
    intro H
    exact List.Forall₂.cons (H x (List.mem_cons_self x xs))
      (ih (fun y hy => H y (List.mem_cons_of_mem x hy)))

theorem obsEqInvLink_recon {z : Option Str × InventoryLink} (h : WFInvLink z) :
    ObsEqInvLink (reconInvLinkE z) z := by
  obtain ⟨inv, hzl, _, _, _⟩ := WFInvLink_loaded h
  have hio : invOf z = inv := by unfold invOf; rw [hzl]; rfl
  refine ⟨rfl, (h.2.1).symm, reconInv (invOf z), inv, rfl, hzl, ?_, ?_, ?_⟩
  · rw [hio]; rfl
  · rw [hio]; rfl
  · rw [hio]
    exact forall₂_map_self (fun w _ => ⟨rfl, rfl, rfl, rfl, rfl, rfl⟩)

theorem obsEqFundLink_recon {q : Option Str × FundLink} (h : WFFundLink q) :
    ObsEqFundLink (reconFundLinkE q) q := by
  obtain ⟨f, hql, _, _, hz⟩ := WFFundLink_loaded h
  have hfo : fundOf q = f := by unfold fundOf; rw [hql]; rfl
  refine ⟨rfl, (h.2.1).symm, reconFund (fundOf q), f, rfl, hql, ?_, ?_, ?_⟩
  · rw [hfo]; rfl
  · rw [hfo]; rfl
  · rw [hfo]
    exact forall₂_map_self (fun z hzm =>
      obsEqInvLink_recon (hz z (mem_dumpSort.mp hzm)))

theorem obsEqArchLink_recon {p : Option Str × ArchiveLink} (h : WFArchLink p) :
    ObsEqArchLink (reconArchLinkE p) p := by
  obtain ⟨a, hpl, _, _, hq⟩ := WFArchLink_loaded h
  have hao : archOf p = a := by unfold archOf; rw [hpl]; rfl
  refine ⟨rfl, (h.2.1).symm, reconArch (archOf p), a, rfl, hpl, ?_, ?_⟩
  · rw [hao]; rfl
  · rw [hao]
    exact forall₂_map_self (fun q hqm =>
      obsEqFundLink_recon (hq q (mem_dumpSort.mp hqm)))

theorem obsEq_recon {al : ArchiveList} {out : FPath} (h : WFList al) :
    ObsEq (reconList al out) al := by
  unfold ObsEq reconList
  exact forall₂_map_self (fun p hpm => obsEqArchLink_recon (h.2 p hpm))

/-- Every link of the tree is materialized (fully in-memory). -/
def allLoaded (al : ArchiveList) : Prop :=
  ∀ p ∈ al.archives, (p.2.loaded_archive).isSome ∧
    ∀ q ∈ (archOf p).funds, (q.2.loaded_fund).isSome ∧
      ∀ z ∈ (fundOf q).inventories, (z.2.loaded_inventory).isSome

instance (al : ArchiveList) : Decidable (allLoaded al) := by
  unfold allLoaded
  infer_instance

def c1baditem0 : Item := ⟨none, none, Json.null, none, none, none⟩

def c1baditem2 : Item := ⟨some ('2' :: []), none, Json.null, none, none, none⟩

def c1badinv : Inventory :=
  ⟨some ('1' :: []), [(none, c1baditem0), (some ('2' :: []), c1baditem2)], none⟩

def c1badlist : ArchiveList :=
  ⟨none, [(some ('T' :: []),
    ⟨some ('T' :: []), some ⟨some ('T' :: []),
      [(some ('2' :: []),
        ⟨some ('2' :: []), some ⟨some ('2' :: []),
          [(some ('1' :: []), ⟨some ('1' :: []), some c1badinv⟩)], none⟩⟩)]⟩⟩)]⟩

/-- C1 (counterexample): the round trip does not exist for every fully
in-memory tree — writing already fails on one of them.  `c1badlist` is
fully materialized, but its single inventory holds an item keyed `None`
next to an item keyed `"2"`; `json.dump(..., sort_keys=True)` sorts the
raw `items` keys and comparing `None` with `str` raises `TypeError`, so
`write_archives_files` fails and nothing can be read back. -/
theorem claim_C1_counterexample :
    allLoaded c1badlist ∧
    write_archives_files (fun s => s) c1badlist [] = none :=
  ⟨by decide, rfl⟩

/-- C1 (amended): for a well-formed fully materialized tree (all links
loaded, node identifiers matching their keys, no key the empty string,
sibling keys distinct after the dump-time coercion, every `items` dict
dumpable — no `None` key beside other keys) and an injective title
hash, `write_archives_files` succeeds, reading the result back (parse
the root `list.json` with `ArchiveList.from_json_dict`, then fetch
every lazy link with `fetch_all`) succeeds, and the tree that comes
back carries exactly the original content: every archive title, fund
number, inventory number, annotation and every item field is identical,
with each mapping's children reordered into ascending dumped-key order
— a permutation of the original children (first two conjuncts) —
because `json.dump(..., sort_keys=True)` writes dict entries sorted;
the root archive list is a JSON list and keeps its order.  Only the
order of siblings within a mapping, the entry order inside free-form
item `data` objects, the materialization state and the recorded base
directory differ. -/
theorem claim_C1_amended :
    (∀ (α : Type) (l : List (Option Str × α)), (sortKeyedOpt l).Perm l) ∧
    (∀ (α : Type) (l : List (Option Str × α)), (sortItems l).Perm l) ∧
    ∀ (hashT : Str → Str), Function.Injective hashT →
      ∀ (al : ArchiveList) (out : FPath), WFList al →
        ∃ fs, write_archives_files hashT al out = some fs ∧
          ∃ al2, read_back hashT out fs = Except.ok al2 ∧ ObsEq al2 al :=
  ⟨fun _ l => dumpSort_perm l, fun _ l => dumpSort_perm l,
   fun hashT hinj al out hwf =>
     ⟨writeFSF hashT al out, writer_eq hwf,
      reconList al out, read_back_writeFSF hinj hwf, obsEq_recon hwf⟩⟩

def c1inv : Inventory :=
  ⟨some ('1' :: []),
   [(some ('5' :: []),
     ⟨some ('5' :: []), none, Json.null, some 1900, none, none⟩)],
   some ('a' :: [])⟩

def c1fund : Fund :=
  ⟨some ('2' :: []), [(some ('1' :: []), ⟨some ('1' :: []), some c1inv⟩)], none⟩

def c1arch : Archive :=
  ⟨some ('T' :: []), [(some ('2' :: []), ⟨some ('2' :: []), some c1fund⟩)]⟩

def c1list : ArchiveList :=
  ⟨none, [(some ('T' :: []), ⟨some ('T' :: []), some c1arch⟩)]⟩

/-- C1 (witness): the amended round trip instantiated at a concrete
one-archive, one-fund, one-inventory, one-item tree, written under the
root `[]` with the identity hash. -/
theorem claim_C1_witness :
    ∃ fs, write_archives_files (fun s => s) c1list [] = some fs ∧
      ∃ al2, read_back (fun s => s) [] fs = Except.ok al2 ∧ ObsEq al2 c1list :=
  claim_C1_amended.2.2 (fun s => s) (fun _ _ h => h) c1list [] (by decide)

/-! ## Claim C2: page rendering and child ordering

`get_page_text` at every level traverses the children keys through
CPython's `sorted(keys, key=get_number_keys)`.  `sorted` is a stable
sort, and on a decidable total preorder every stable sort computes the
same list as insertion sort, which is the model used here. -/

def pySorted (l : List (Option Str)) : List (Option Str) :=
  List.insertionSort rawLe l

def headingStr (n : Nat) : Str := List.replicate n '='

def joinNl (parts : List Str) : Str := List.intercalate (("\n").data) parts

def joinNl2 (parts : List Str) : Str := List.intercalate (("\n\n").data) parts

/-- `Item.get_page_text`.  The source reaches the ancestors through
`parent` pointers (raising when the parent is absent); here the ancestor
identifier strings and annotations are explicit arguments, so the
parent-present case is the only one modeled. -/
def Item.get_page_text (atitle fnum invnum : Str) (fann iann : Option Str)
    (it : Item) : Str :=
  ("\x7b\x7bЕдиницаХранения|archive=").data ++ atitle
  ++ ("|fund=").data ++ fnum
  ++ ("|inventory=").data ++ invnum
  ++ ("|item=").data ++ optStr it.item_number
  ++ ("|fund_annotation=").data ++ optStr fann
  ++ ("|inventory_annotation=").data ++ optStr iann
  ++ ("|item_annotation=").data ++ optStr it.item_annot
  ++ ("|start_year=").data ++ get_number_str it.start_year
  ++ ("|end_year=").data ++ get_number_str it.end_year
  ++ ("|url=").data ++ optStr it.url ++ ("\x7d\x7d\n\n").data

/-- `Inventory.get_item_page_text`.  The item lookup happens before the
`separate` branch in the source, so a missing key raises (`KeyError`)
in both branches: modeled as `none`. -/
def Inventory.get_item_page_text (atitle fnum : Str) (fann : Option Str)
    (inv : Inventory) (item_number : Option Str) (separate : Bool)
    (heading_level : Nat) : Option Str :=
  match alookup item_number inv.items with
  | none => none
  | some item =>
    if separate then
      some (("\x7b\x7bСсылкаНаЕдиницуХранения|archive=").data ++ atitle
        ++ ("|fund=").data ++ fnum
        ++ ("|inventory=").data ++ optStr inv.number
        ++ ("|item=").data ++ optStr item_number ++ ("\x7d\x7d").data)
    else
      some (headingStr heading_level ++ (" Единица хранения ").data
        ++ optStr item.item_number ++ (" ").data ++ headingStr heading_level
        ++ ("\n\n").data
        ++ Item.get_page_text atitle fnum (optStr inv.number) fann inv.annot
            item)

def Inventory.get_page_text (atitle fnum : Str) (fann : Option Str)
    (inv : Inventory) (separate : Bool) (heading_level : Nat) :
    Option Str := do
  let parts ← omapM
    (fun k => Inventory.get_item_page_text atitle fnum fann inv k separate
      (heading_level + 1))
    (pySorted (inv.items.map Prod.fst))
  some (("\x7b\x7bОпись|archive=").data ++ atitle
    ++ ("|fund=").data ++ fnum
    ++ ("|inventory=").data ++ optStr inv.number
    ++ ("|fund_annotation=").data ++ optStr fann
    ++ ("|inventory_annotation=").data ++ optStr inv.annot
    ++ ("\x7d\x7d\n\n").data
    ++ headingStr heading_level ++ (" Единицы хранения ").data
    ++ headingStr heading_level ++ ("\n\n").data
    ++ joinNl2 parts ++ ("\n").data)

/-- `Fund.get_inventory_link_page_text`.  In the non-separate branch the
source looks the inventory link up (`KeyError` possible) and fetches it;
an unmaterialized link, whose fetch would read a file, is `none` as in
the writer. -/
def Fund.get_inventory_link_page_text (atitle : Str) (f : Fund)
    (inventory_number : Option Str) (separate : Bool) (heading_level : Nat) :
    Option Str :=
  if separate then
    some (("\x7b\x7bСсылкаНаОпись|archive=").data ++ atitle
      ++ ("|fund=").data ++ optStr f.number
      ++ ("|inventory=").data ++ optStr inventory_number ++ ("\x7d\x7d").data)
  else
    match alookup inventory_number f.inventories with
    | none => none
    | some l =>
      match l.loaded_inventory with
      | none => none
      | some inv => do
        let invText ← Inventory.get_page_text atitle (optStr f.number) f.annot
          inv separate (heading_level + 1)
        some (headingStr heading_level ++ (" ").data
          ++ (match inventory_number with
              | none => ("Неизвестная опись").data
              | some s => ("Опись ").data ++ s)
          ++ (" ").data ++ headingStr heading_level ++ ("\n\n").data ++ invText)

def Fund.get_page_text (atitle : Str) (f : Fund) (separate : Bool)
    (heading_level : Nat) : Option Str :=
  if separate then do
    let parts ← omapM
      (fun k => Fund.get_inventory_link_page_text atitle f k separate
        (heading_level + 1))
      (pySorted (f.inventories.map Prod.fst))
    some (("\x7b\x7bФонд|archive=").data ++ atitle
      ++ ("|fund=").data ++ optStr f.number
      ++ ("|fund_annotation=").data ++ optStr f.annot ++ ("\x7d\x7d\n\n").data
      ++ headingStr heading_level ++ (" Описи ").data
      ++ headingStr heading_level ++ ("\n\n").data
      ++ joinNl parts ++ ("\n").data)
  else do
    let parts ← omapM
      (fun k => Fund.get_inventory_link_page_text atitle f k separate
        heading_level)
      (pySorted (f.inventories.map Prod.fst))
    some (("\x7b\x7bФонд|archive=").data ++ atitle
      ++ ("|fund=").data ++ optStr f.number
      ++ ("|fund_annotation=").data ++ optStr f.annot ++ ("\x7d\x7d\n\n").data
      ++ joinNl parts ++ ("\n").data)

def Archive.get_fund_link_page_text (a : Archive) (fund_number : Option Str)
    (separate : Bool) (heading_level : Nat) : Option Str :=
  if separate then
    some (("\x7b\x7bСсылкаНаФонд|archive=").data ++ optStr a.title
      ++ ("|fund=").data ++ optStr fund_number ++ ("\x7d\x7d").data)
  else
    match alookup fund_number a.funds with
    | none => none
    | some l =>
      match l.loaded_fund with
      | none => none
      | some f => do
        let fText ← Fund.get_page_text (optStr a.title) f separate
          (heading_level + 1)
        some (headingStr heading_level ++ (" ").data
          ++ (match fund_number with
              | none => ("Неизвестный фонд").data
              | some s => ("Фонд ").data ++ s)
          ++ (" ").data ++ headingStr heading_level ++ ("\n\n").data ++ fText)

def Archive.get_page_text (a : Archive) (separate : Bool)
    (heading_level : Nat) : Option Str := do
  let parts ← omapM
    (fun k => Archive.get_fund_link_page_text a k separate (heading_level + 1))
    (pySorted (a.funds.map Prod.fst))
  some (("\x7b\x7bАрхив|archive=").data ++ optStr a.title
    ++ ("\x7d\x7d\n\n").data
    ++ headingStr heading_level ++ (" Фонды ").data ++ headingStr heading_level
    ++ ("\n\n").data ++ joinNl parts ++ ("\n").data)

/-- `ArchiveList.get_page_text`: only the truthy archive titles are
listed; no lookup or fetch happens, so this one is total (the `separate`
parameter is accepted and ignored as in the source). -/
def ArchiveList.get_page_text (al : ArchiveList) (separate : Bool)
    (heading_level : Nat) : Str :=
  headingStr heading_level ++ (" Архивы ").data ++ headingStr heading_level
  ++ ("\n\n").data
  ++ joinNl ((pySorted ((al.archives.map Prod.fst).filter truthyOptStr)).map
      (fun k => ("* [[").data ++ optStr k ++ ("]]").data))
  ++ ("\n").data

theorem alookup_mem_self [DecidableEq κ] {k : κ} {v : α} :
    ∀ {l : List (κ × α)}, alookup k l = some v → (k, v) ∈ l := by
  intro l
  induction l with
  | nil => intro h; simp [alookup] at h
  | cons p rest ih =>
    obtain ⟨k₀, v₀⟩ := p
    intro h
    unfold alookup at h
    by_cases hk : k₀ = k
    · rw [if_pos hk] at h
      subst hk
      cases h
      exact List.mem_cons_self _ _
    · rw [if_neg hk] at h
      exact List.mem_cons_of_mem _ (ih h)

theorem alookup_none_iff [DecidableEq κ] {k : κ} :
    ∀ {l : List (κ × α)}, alookup k l = none ↔ k ∉ l.map Prod.fst := by
  intro l
  induction l with
  | nil => simp [alookup]
  | cons p rest ih =>
    obtain ⟨k₀, v₀⟩ := p
    unfold alookup
    by_cases hk : k₀ = k
    · subst hk
      simp
    · rw [if_neg hk]
      simp only [List.map_cons, List.mem_cons]
      rw [ih]
      constructor
      · intro h hc
        cases hc with
        | inl h' => exact hk h'.symm
        | inr h' => exact h h'
      · intro h h'
        exact h (Or.inr h')

theorem alookup_eq_of_perm {α : Type} {l1 l2 : List (Option Str × α)}
    (hp : l1.Perm l2) (hnd : (l1.map Prod.fst).Nodup) (k : Option Str) :
    alookup k l1 = alookup k l2 := by
  have hnd2 : (l2.map Prod.fst).Nodup := ((hp.map Prod.fst).nodup_iff).mp hnd
  cases h : alookup k l1 with
  | some v =>
    exact (alookup_eq_of_mem_nodup (hp.mem_iff.mp (alookup_mem_self h))
      hnd2).symm
  | none =>
    have hk : k ∉ l1.map Prod.fst := alookup_none_iff.mp h
    have hk2 : k ∉ l2.map Prod.fst := fun hc =>
      hk ((hp.map Prod.fst).mem_iff.mpr hc)
    exact (alookup_none_iff.mpr hk2).symm

theorem eq_of_perm_of_map_eq {α β : Type} {f : α → β} :
    ∀ {l1 l2 : List α}, l1.Perm l2 → l1.map f = l2.map f →
      (l1.map f).Nodup → l1 = l2 := by
  intro l1
  induction l1 with
  | nil =>
    intro l2 hp _ _
    exact (List.Perm.eq_nil hp.symm).symm
  | cons x xs ih =>
    intro l2 hp hmap hnd
    cases l2 with
    | nil => exact absurd (List.Perm.eq_nil hp) (by simp)
    | cons y ys =>
      simp only [List.map_cons, List.cons.injEq] at hmap
      obtain ⟨hfx, hmap2⟩ := hmap
      have hx2 : x ∈ y :: ys := hp.mem_iff.mp (List.mem_cons_self x xs)
      have hxy : x = y := by
        cases List.mem_cons.mp hx2 with
        | inl h => exact h
        | inr h =>
          exfalso
          have hfm : f x ∈ ys.map f := List.mem_map_of_mem f h
          rw [← hmap2] at hfm
          exact (List.nodup_cons.mp hnd).1 hfm
      subst hxy
      exact congrArg (List.cons x)
        (ih hp.cons_inv hmap2 (List.nodup_cons.mp hnd).2)

theorem sorted_perm_eq {l1 l2 : List (Option Str)} (hp : l1.Perm l2)
    (hs1 : List.Sorted rawLe l1) (hs2 : List.Sorted rawLe l2)
    (hnd : (l1.map (fun k => get_number_keys k)).Nodup) : l1 = l2 := by
  have hmape : l1.map (fun k => get_number_keys k) =
      l2.map (fun k => get_number_keys k) :=
    @List.eq_of_perm_of_sorted (Int × Str × Int) keyLe
      ⟨fun _ _ h1 h2 => keyLe_antisymm h1 h2⟩ _ _
      (hp.map (fun k => get_number_keys k))
      ((List.pairwise_map).mpr hs1) ((List.pairwise_map).mpr hs2)
  exact eq_of_perm_of_map_eq hp hmape hnd

theorem pySorted_sorted (l : List (Option Str)) :
    List.Sorted rawLe (pySorted l) := by
  haveI : IsTotal (Option Str) rawLe := ⟨rawLe_total⟩
  haveI : IsTrans (Option Str) rawLe := ⟨rawLe_trans⟩
  exact List.sorted_insertionSort rawLe l

theorem pySorted_perm (l : List (Option Str)) : (pySorted l).Perm l :=
  List.perm_insertionSort rawLe l

theorem pySorted_eq_of_perm {l1 l2 : List (Option Str)} (hp : l1.Perm l2)
    (hnd : (l1.map (fun k => get_number_keys k)).Nodup) :
    pySorted l1 = pySorted l2 := by
  have hp2 : (pySorted l1).Perm (pySorted l2) :=
    (pySorted_perm l1).trans (hp.trans (pySorted_perm l2).symm)
  have hnd1 : ((pySorted l1).map (fun k => get_number_keys k)).Nodup :=
    (((pySorted_perm l1).map (fun k => get_number_keys k)).nodup_iff).mpr hnd
  exact sorted_perm_eq hp2 (pySorted_sorted l1) (pySorted_sorted l2) hnd1

theorem omapM_congr {α β : Type} {g h : α → Option β} :
    ∀ {l : List α}, (∀ x ∈ l, g x = h x) → omapM g l = omapM h l := by
  intro l
  induction l with
  | nil => intro _; rfl
  | cons x xs ih =>
    intro H
    unfold omapM
    rw [H x (List.mem_cons_self x xs),
      ih (fun y hy => H y (List.mem_cons_of_mem x hy))]

theorem inv_page_invariant {atitle fnum : Str} {fann : Option Str}
    {inv1 inv2 : Inventory} (hn : inv1.number = inv2.number)
    (ha : inv1.annot = inv2.annot) (hp : inv1.items.Perm inv2.items)
    (hnd : (inv1.items.map (fun w => get_number_keys w.1)).Nodup)
    (separate : Bool) (hl : Nat) :
    Inventory.get_page_text atitle fnum fann inv1 separate hl =
    Inventory.get_page_text atitle fnum fann inv2 separate hl := by
  have hndk : ((inv1.items.map Prod.fst).map (fun k => get_number_keys k)).Nodup := by
    rw [List.map_map]
    exact hnd
  have hndfst : (inv1.items.map Prod.fst).Nodup :=
    List.Nodup.of_map (fun k => get_number_keys k) hndk
  have halk : ∀ k, alookup k inv1.items = alookup k inv2.items :=
    alookup_eq_of_perm hp hndfst
  have hkeys : pySorted (inv1.items.map Prod.fst) =
      pySorted (inv2.items.map Prod.fst) :=
    pySorted_eq_of_perm (hp.map Prod.fst) hndk
  have hitem : ∀ k sep hl2,
      Inventory.get_item_page_text atitle fnum fann inv1 k sep hl2 =
      Inventory.get_item_page_text atitle fnum fann inv2 k sep hl2 := by
    intro k sep hl2
    unfold Inventory.get_item_page_text
    rw [halk k, hn, ha]
  unfold Inventory.get_page_text
  rw [hkeys, hn, ha]
  have homap : omapM (fun k =>
      Inventory.get_item_page_text atitle fnum fann inv1 k separate (hl + 1))
      (pySorted (inv2.items.map Prod.fst)) = omapM (fun k =>
      Inventory.get_item_page_text atitle fnum fann inv2 k separate (hl + 1))
      (pySorted (inv2.items.map Prod.fst)) :=
    omapM_congr (fun k _ => hitem k separate (hl + 1))
  rw [homap]

theorem fund_page_invariant {atitle : Str} {f1 f2 : Fund}
    (hn : f1.number = f2.number) (ha : f1.annot = f2.annot)
    (hp : f1.inventories.Perm f2.inventories)
    (hnd : (f1.inventories.map (fun z => get_number_keys z.1)).Nodup)
    (separate : Bool) (hl : Nat) :
    Fund.get_page_text atitle f1 separate hl =
    Fund.get_page_text atitle f2 separate hl := by
  have hndk : ((f1.inventories.map Prod.fst).map (fun k => get_number_keys k)).Nodup := by
    rw [List.map_map]
    exact hnd
  have hndfst : (f1.inventories.map Prod.fst).Nodup :=
    List.Nodup.of_map (fun k => get_number_keys k) hndk
  have halk : ∀ k, alookup k f1.inventories = alookup k f2.inventories :=
    alookup_eq_of_perm hp hndfst
  have hkeys : pySorted (f1.inventories.map Prod.fst) =
      pySorted (f2.inventories.map Prod.fst) :=
    pySorted_eq_of_perm (hp.map Prod.fst) hndk
  have hlink : ∀ k sep hl2,
      Fund.get_inventory_link_page_text atitle f1 k sep hl2 =
      Fund.get_inventory_link_page_text atitle f2 k sep hl2 := by
    intro k sep hl2
    unfold Fund.get_inventory_link_page_text
    rw [halk k, hn, ha]
  unfold Fund.get_page_text
  rw [hkeys, hn, ha]
  have homap1 : omapM (fun k =>
      Fund.get_inventory_link_page_text atitle f1 k separate (hl + 1))
      (pySorted (f2.inventories.map Prod.fst)) = omapM (fun k =>
      Fund.get_inventory_link_page_text atitle f2 k separate (hl + 1))
      (pySorted (f2.inventories.map Prod.fst)) :=
    omapM_congr (fun k _ => hlink k separate (hl + 1))
  have homap2 : omapM (fun k =>
      Fund.get_inventory_link_page_text atitle f1 k separate hl)
      (pySorted (f2.inventories.map Prod.fst)) = omapM (fun k =>
      Fund.get_inventory_link_page_text atitle f2 k separate hl)
      (pySorted (f2.inventories.map Prod.fst)) :=
    omapM_congr (fun k _ => hlink k separate hl)
  rw [homap1, homap2]

theorem arch_page_invariant {a1 a2 : Archive} (ht : a1.title = a2.title)
    (hp : a1.funds.Perm a2.funds)
    (hnd : (a1.funds.map (fun q => get_number_keys q.1)).Nodup)
    (separate : Bool) (hl : Nat) :
    Archive.get_page_text a1 separate hl =
    Archive.get_page_text a2 separate hl := by
  have hndk : ((a1.funds.map Prod.fst).map (fun k => get_number_keys k)).Nodup := by
    rw [List.map_map]
    exact hnd
  have hndfst : (a1.funds.map Prod.fst).Nodup :=
    List.Nodup.of_map (fun k => get_number_keys k) hndk
  have halk : ∀ k, alookup k a1.funds = alookup k a2.funds :=
    alookup_eq_of_perm hp hndfst
  have hkeys : pySorted (a1.funds.map Prod.fst) =
      pySorted (a2.funds.map Prod.fst) :=
    pySorted_eq_of_perm (hp.map Prod.fst) hndk
  have hlink : ∀ k sep hl2,
      Archive.get_fund_link_page_text a1 k sep hl2 =
      Archive.get_fund_link_page_text a2 k sep hl2 := by
    intro k sep hl2
    unfold Archive.get_fund_link_page_text
    rw [halk k, ht]
  unfold Archive.get_page_text
  rw [hkeys, ht]
  have homap : omapM (fun k =>
      Archive.get_fund_link_page_text a1 k separate (hl + 1))
      (pySorted (a2.funds.map Prod.fst)) = omapM (fun k =>
      Archive.get_fund_link_page_text a2 k separate (hl + 1))
      (pySorted (a2.funds.map Prod.fst)) :=
    omapM_congr (fun k _ => hlink k separate (hl + 1))
  rw [homap]

theorem list_page_invariant {al1 al2 : ArchiveList}
    (hp : al1.archives.Perm al2.archives)
    (hnd : (al1.archives.map (fun p => get_number_keys p.1)).Nodup)
    (separate : Bool) (hl : Nat) :
    ArchiveList.get_page_text al1 separate hl =
    ArchiveList.get_page_text al2 separate hl := by
  have hndk : ((al1.archives.map Prod.fst).map (fun k => get_number_keys k)).Nodup := by
    rw [List.map_map]
    exact hnd
  have hndf : (((al1.archives.map Prod.fst).filter truthyOptStr).map
      (fun k => get_number_keys k)).Nodup :=
    List.Nodup.sublist
      (List.Sublist.map (fun k => get_number_keys k)
        (List.filter_sublist (al1.archives.map Prod.fst))) hndk
  have hkeys : pySorted ((al1.archives.map Prod.fst).filter truthyOptStr) =
      pySorted ((al2.archives.map Prod.fst).filter truthyOptStr) :=
    pySorted_eq_of_perm (List.Perm.filter truthyOptStr (hp.map Prod.fst)) hndf
  unfold ArchiveList.get_page_text
  rw [hkeys]

def c2item01 : Item := ⟨some ('0' :: '1' :: []), none, Json.null, none, none, none⟩

def c2item1 : Item := ⟨some ('1' :: []), none, Json.null, none, none, none⟩

def c2invA : Inventory :=
  ⟨some ('7' :: []),
   [(some ('0' :: '1' :: []), c2item01), (some ('1' :: []), c2item1)], none⟩

def c2invB : Inventory :=
  ⟨some ('7' :: []),
   [(some ('1' :: []), c2item1), (some ('0' :: '1' :: []), c2item01)], none⟩

/-- C2 (counterexample): two inventories with the same content — the
same key/item associations (the item lists are permutations of each
other), the same number and the same annotation — but different
insertion histories render different page texts: the keys "01" and "1"
share the normalized key (1, '', -1), so CPython's stable sort keeps
them in insertion order and the rendered child order differs. -/
theorem claim_C2_counterexample :
    c2invA.items.Perm c2invB.items ∧
    c2invA.number = c2invB.number ∧ c2invA.annot = c2invB.annot ∧
    Inventory.get_page_text [] [] none c2invA true 1 ≠
      Inventory.get_page_text [] [] none c2invB true 1 :=
  ⟨List.Perm.swap _ _ _, rfl, rfl, by decide⟩

/-- C2 (amended): what is true of the rendering order.  (1) At every
level the children are traversed in the order `pySorted` of their keys,
which is ascending under the normalized-key comparison
(`get_number_keys`, compared componentwise) and a permutation of the
mapping's keys.  (2–5) The page text of an inventory, fund, archive and
archive list is independent of the insertion order of the underlying
mapping — equal content (a permutation) gives byte-identical text —
PROVIDED no two sibling keys share a normalized key; the counterexample
shows the proviso is necessary, so the original unconditional
insertion-order-independence claim is false. -/
theorem claim_C2_amended :
    (∀ l : List (Option Str),
      List.Sorted rawLe (pySorted l) ∧ (pySorted l).Perm l) ∧
    (∀ (atitle fnum : Str) (fann : Option Str) (inv1 inv2 : Inventory)
       (sep : Bool) (hl : Nat),
      inv1.number = inv2.number → inv1.annot = inv2.annot →
      inv1.items.Perm inv2.items →
      (inv1.items.map (fun w => get_number_keys w.1)).Nodup →
      Inventory.get_page_text atitle fnum fann inv1 sep hl =
        Inventory.get_page_text atitle fnum fann inv2 sep hl) ∧
    (∀ (atitle : Str) (f1 f2 : Fund) (sep : Bool) (hl : Nat),
      f1.number = f2.number → f1.annot = f2.annot →
      f1.inventories.Perm f2.inventories →
      (f1.inventories.map (fun z => get_number_keys z.1)).Nodup →
      Fund.get_page_text atitle f1 sep hl = Fund.get_page_text atitle f2 sep hl) ∧
    (∀ (a1 a2 : Archive) (sep : Bool) (hl : Nat),
      a1.title = a2.title → a1.funds.Perm a2.funds →
      (a1.funds.map (fun q => get_number_keys q.1)).Nodup →
      Archive.get_page_text a1 sep hl = Archive.get_page_text a2 sep hl) ∧
    (∀ (al1 al2 : ArchiveList) (sep : Bool) (hl : Nat),
      al1.archives.Perm al2.archives →
      (al1.archives.map (fun p => get_number_keys p.1)).Nodup →
      ArchiveList.get_page_text al1 sep hl =
        ArchiveList.get_page_text al2 sep hl) :=
  ⟨fun l => ⟨pySorted_sorted l, pySorted_perm l⟩,
   fun _ _ _ _ _ sep hl hn ha hp hnd =>
     inv_page_invariant hn ha hp hnd sep hl,
   fun _ _ _ sep hl hn ha hp hnd => fund_page_invariant hn ha hp hnd sep hl,
   fun _ _ sep hl ht hp hnd => arch_page_invariant ht hp hnd sep hl,
   fun _ _ sep hl hp hnd => list_page_invariant hp hnd sep hl⟩

def c2item2 : Item := ⟨some ('2' :: []), none, Json.null, none, none, none⟩

def c2invC : Inventory :=
  ⟨some ('7' :: []),
   [(some ('1' :: []), c2item1), (some ('2' :: []), c2item2)], none⟩

def c2invD : Inventory :=
  ⟨some ('7' :: []),
   [(some ('2' :: []), c2item2), (some ('1' :: []), c2item1)], none⟩

/-- C2 (witness): with the distinct normalized keys "1" and "2", two
insertion orders of the same two items render the same inventory page
text. -/
theorem claim_C2_witness :
    Inventory.get_page_text [] [] none c2invC true 1 =
      Inventory.get_page_text [] [] none c2invD true 1 :=
  claim_C2_amended.2.1 [] [] none c2invC c2invD true 1 rfl rfl
    (List.Perm.swap _ _ _) (by decide)

/-! ## Claim C9: temple page generation (temples.py)

The temple model keeps the fields that drive page naming and the
hierarchy (`temple_id`, the three mandatory strings, `url`, `card_name`
and the two hierarchy lists); the remaining optional card fields are
omitted, i.e. the embedding is exact for temples whose other card
fields are `None`, which do not influence names or ordering.  The
generator is an iterator in the source; it is modeled as the list of
yielded pairs, with a recursion-depth fuel (every statement below holds
for every fuel). -/

def utf8Len (s : Str) : Nat := s.foldl (fun acc c => acc + c.utf8Size) 0

/-- Python slicing `s[:n]`, clamping a negative bound from the end. -/
def pyTake (s : Str) (n : Int) : Str :=
  if 0 ≤ n then s.take n.toNat else s.take ((s.length : Int) + n).toNat

/-- The per-prefix weighted size used by `trunc_str_bytes`:
`(len(p.encode()) - len(p)) // 2 + len(p)`. -/
def truncWeight (p : Str) : Nat := (utf8Len p - p.length) / 2 + p.length

def truncLoop (src : Str) (lim : Int) (om : Str) : Nat → Nat → Str
  | _, 0 => src
  | i, fuel + 1 =>
    let s := truncWeight (src.take (i + 1))
    if (s : Int) < lim then truncLoop src lim om (i + 1) fuel
    else if (s : Int) = lim then src.take (i + 1) ++ om
    else src.take i ++ om

/-- `utils.trunc_str_bytes` (UTF-8 encoding). -/
def trunc_str_bytes (src : Str) (trunc_at : Int) (om : Str) : Str :=
  let str_size := src.length
  let str_bytesize := utf8Len src
  let om_size := (utf8Len om - om.length) / 2 + om.length
  if str_size = str_bytesize then
    if (str_size : Int) ≤ trunc_at then src
    else pyTake src (trunc_at - om_size) ++ om
  else if (((str_bytesize - str_size) / 2 + str_size : Nat) : Int) ≤ trunc_at then
    src
  else truncLoop src (trunc_at - om_size) om 0 str_size

/-- `utils.generate_wiki_template_text`; the parameter dict is an
insertion-ordered association list. -/
def generate_wiki_template_text (nm : Str) (parameters : List (Str × Str)) :
    Str :=
  ("\x7b\x7b").data ++ nm
  ++ (if parameters.length = 0 then [] else ("\n").data)
  ++ (parameters.map (fun p =>
        ("| ").data ++ p.1 ++ (" = ").data ++ p.2 ++ ("\n").data)).flatten
  ++ ("\x7d\x7d").data

structure Temple where
  temple_id : Int
  name : Str
  town : Str
  construction_date : Str
  url : Option Str
  card_name : Option Str
  card_hierarchy_old : Option (List Str)
  card_hierarchy_modern : Option (List Str)

/-- `Temple.get_name`: `card_name or name` (Python truthiness). -/
def Temple.get_name (t : Temple) : Str :=
  match t.card_name with
  | some s => if s = [] then t.name else s
  | none => t.name

def Temple.get_truncated_name (tpfx : Str) (t : Temple) : Str :=
  trunc_str_bytes (tpfx ++ t.get_name) 200 (("...").data)
  ++ (" (").data ++ (toString t.temple_id).data ++ (")").data

def tParamOpt (k : Str) (v : Option Str) : List (Str × Str) :=
  match v with
  | none => []
  | some s => [(k, s)]

def listParams (k : Str) (v : Option (List Str)) : List (Str × Str) :=
  match v with
  | none => []
  | some l => l.enum.map (fun p => (k ++ (toString p.1).data, p.2))

/-- `Temple.get_page_text`: the template parameters in assembly order
(`construction_date` is skipped explicitly in the source; the omitted
card fields would come between `card_name` and the hierarchy lists and
are absent here). -/
def Temple.get_page_text (t : Temple) : Str :=
  generate_wiki_template_text (("Храм").data)
    ((("name").data, t.name) :: (("town").data, t.town) ::
     (tParamOpt (("url").data) t.url
      ++ tParamOpt (("card_name").data) t.card_name
      ++ listParams (("card_hierarchy_old").data) t.card_hierarchy_old
      ++ listParams (("card_hierarchy_modern").data) t.card_hierarchy_modern))

inductive HierarchyIndex where
  | mk (is_old : Bool) (nm : Str) (child_temples : List (Str × Temple))
      (child_indices : List (Str × HierarchyIndex))

def HierarchyIndex.name : HierarchyIndex → Str
  | .mk _ nm _ _ => nm

def HierarchyIndex.child_temples : HierarchyIndex → List (Str × Temple)
  | .mk _ _ cts _ => cts

def HierarchyIndex.child_indices : HierarchyIndex → List (Str × HierarchyIndex)
  | .mk _ _ _ cis => cis

/-- `HierarchyIndex.get_page_text` (the `prefix` argument of the source
is unused there and dropped here). -/
def HierarchyIndex.get_page_text (tpfx : Str) (h : HierarchyIndex) : Str :=
  match h with
  | .mk is_old nm cts cis =>
    generate_wiki_template_text (("Иерархия").data)
      [(("old").data, (if is_old then ("1").data else ("0").data)),
       (("name").data, nm)]
    ++ ("\n").data
    ++ (if cis.length = 0 then [] else
        ("\n== Регионы ==\n\n").data
        ++ joinNl (cis.map (fun ci =>
            ("* [[/").data ++ HierarchyIndex.name ci.2 ++ ("|").data
            ++ HierarchyIndex.name ci.2 ++ ("]]").data))
        ++ ("\n").data)
    ++ (if cts.length = 0 then [] else
        ("\n== Храмы ==\n\n").data
        ++ joinNl (cts.map (fun ct =>
            ("* [[").data ++ Temple.get_truncated_name tpfx ct.2
            ++ ("|").data ++ Temple.get_name ct.2 ++ ("]]").data))
        ++ ("\n").data)

/-- `HierarchyIndex.generate_hierarchy_pages` as the list of yielded
(page name, page text) pairs: own index page, then (when
`generate_temples`) one page per child temple, then each child index's
pages recursively under the extended prefix. -/
def genPages (fuel : Nat) (pfx tpfx : Str) (generate_temples : Bool)
    (h : HierarchyIndex) : List (Str × Str) :=
  match fuel, h with
  | 0, _ => []
  | fuel + 1, .mk is_old nm cts cis =>
    (pfx ++ nm,
      HierarchyIndex.get_page_text tpfx (.mk is_old nm cts cis))
    :: ((if generate_temples then
          cts.map (fun ct =>
            (Temple.get_truncated_name tpfx ct.2, Temple.get_page_text ct.2))
         else [])
        ++ (cis.map (fun ci =>
            genPages fuel (pfx ++ nm ++ ("/").data) tpfx generate_temples
              ci.2)).flatten)

/-- The page-consuming loop of `generate_temples_pages`: reject a page
name already seen or longer than 255 UTF-8 bytes, else record it and
continue.  The file writes are abstracted away; the accumulated names
(most recent first) are returned. -/
def consumeLoop (seen : List Str) : List (Str × Str) → Except Unit (List Str)
  | [] => Except.ok seen
  | (nm, _) :: rest =>
    if nm ∈ seen then Except.error ()
    else if 255 < utf8Len nm then Except.error ()
    else consumeLoop (nm :: seen) rest

def seenAfter (seen : List Str) : List (Str × Str) → List Str
  | [] => seen
  | (nm, _) :: rest => seenAfter (nm :: seen) rest

def cleanPages (seen : List Str) : List (Str × Str) → Prop
  | [] => True
  | (nm, _) :: rest => nm ∉ seen ∧ utf8Len nm ≤ 255 ∧ cleanPages (nm :: seen) rest

def pageNameOk (seen : List Str) (nm : Str) : Prop :=
  nm ∉ seen ∧ utf8Len nm ≤ 255

def cleanPagesDec : (pages : List (Str × Str)) → (seen : List Str) →
    Decidable (cleanPages seen pages)
  | [], _ => isTrue trivial
  | (nm, _) :: rest, seen =>
    haveI := cleanPagesDec rest (nm :: seen)
    inferInstanceAs
      (Decidable (nm ∉ seen ∧ utf8Len nm ≤ 255 ∧ cleanPages (nm :: seen) rest))

instance (seen : List Str) (pages : List (Str × Str)) :
    Decidable (cleanPages seen pages) := cleanPagesDec pages seen

/-- The checking core of the `generate_temples_pages` command: consume
the chained modern (with temple pages) and old (without) generators. -/
def generate_temples_pages (fuel : Nat) (modern old : HierarchyIndex)
    (mpfx opfx tpfx : Str) : Except Unit (List Str) :=
  consumeLoop [] (genPages fuel mpfx tpfx true modern
    ++ genPages fuel opfx tpfx false old)

theorem consume_ok : ∀ (pages : List (Str × Str)) (seen : List Str),
    cleanPages seen pages → consumeLoop seen pages = Except.ok (seenAfter seen pages) := by
  intro pages
  induction pages with
  | nil => intro seen _; rfl
  | cons p rest ih =>
    obtain ⟨nm, tx⟩ := p
    intro seen hc
    obtain ⟨h1, h2, h3⟩ := hc
    unfold consumeLoop
    rw [if_neg h1, if_neg (Nat.not_lt.mpr h2)]
    exact ih (nm :: seen) h3

theorem consume_error : ∀ (good : List (Str × Str)) (seen : List Str)
    (bad : Str × Str) (rest : List (Str × Str)),
    cleanPages seen good → ¬ pageNameOk (seenAfter seen good) bad.1 →
    consumeLoop seen (good ++ bad :: rest) = Except.error () := by
  intro good
  induction good with
  | nil =>
    intro seen bad rest _ hbad
    obtain ⟨nm, tx⟩ := bad
    show consumeLoop seen ((nm, tx) :: rest) = Except.error ()
    unfold consumeLoop
    by_cases hmem : nm ∈ seen
    · rw [if_pos hmem]
    · have hlen : 255 < utf8Len nm := by
        by_contra hle
        exact hbad ⟨hmem, Nat.le_of_not_lt hle⟩
      rw [if_neg hmem, if_pos hlen]
  | cons p rest2 ih =>
    obtain ⟨nm, tx⟩ := p
    intro seen bad rest hc hbad
    obtain ⟨h1, h2, h3⟩ := hc
    show consumeLoop seen ((nm, tx) :: (rest2 ++ bad :: rest)) = Except.error ()
    unfold consumeLoop
    rw [if_neg h1, if_neg (Nat.not_lt.mpr h2)]
    exact ih (nm :: seen) bad rest h3 hbad

/-- C9: temple page generation is a finite depth-first pre-order
sequence, and the consuming command errors exactly at an offending page.
(1) For any positive fuel, the first page generated for an index is the
index's own page under the current prefix; (2) every page generated for
a child index's subtree occurs in the tail, i.e. strictly after the
index's own page — so every index page precedes all of its descendants'
pages; (3) if every page name of the chained modern+old generation is
fresh and at most 255 UTF-8 bytes, the command succeeds and accepts all
pages; (4) if the generation splits as `good ++ bad :: rest` with `good`
clean and `bad`'s name already seen or over 255 UTF-8 bytes, the
command errors, whatever pages follow — the run fails no later than the
offending page. -/
theorem claim_C9 :
    (∀ (fuel : Nat) (pfx tpfx : Str) (gt : Bool) (h : HierarchyIndex),
      (genPages (fuel + 1) pfx tpfx gt h).head? =
        some (pfx ++ HierarchyIndex.name h,
          HierarchyIndex.get_page_text tpfx h)) ∧
    (∀ (fuel : Nat) (pfx tpfx : Str) (gt : Bool) (h : HierarchyIndex)
       (ci : Str × HierarchyIndex), ci ∈ HierarchyIndex.child_indices h →
      ∀ pg ∈ genPages fuel (pfx ++ HierarchyIndex.name h ++ ("/").data) tpfx
          gt ci.2,
        pg ∈ (genPages (fuel + 1) pfx tpfx gt h).tail) ∧
    (∀ (fuel : Nat) (modern old : HierarchyIndex) (mpfx opfx tpfx : Str),
      cleanPages [] (genPages fuel mpfx tpfx true modern
          ++ genPages fuel opfx tpfx false old) →
      generate_temples_pages fuel modern old mpfx opfx tpfx =
        Except.ok (seenAfter [] (genPages fuel mpfx tpfx true modern
          ++ genPages fuel opfx tpfx false old))) ∧
    (∀ (fuel : Nat) (modern old : HierarchyIndex) (mpfx opfx tpfx : Str)
       (good : List (Str × Str)) (bad : Str × Str) (rest : List (Str × Str)),
      genPages fuel mpfx tpfx true modern ++ genPages fuel opfx tpfx false old =
        good ++ bad :: rest →
      cleanPages [] good → ¬ pageNameOk (seenAfter [] good) bad.1 →
      generate_temples_pages fuel modern old mpfx opfx tpfx =
        Except.error ()) := by
  refine ⟨?_, ?_, ?_, ?_⟩
  · intro fuel pfx tpfx gt h
    cases h with
    | mk is_old nm cts cis => rfl
  · intro fuel pfx tpfx gt h ci hci pg hpg
    cases h with
    | mk is_old nm cts cis =>
      show pg ∈ (if gt then cts.map _ else []) ++ _
      apply List.mem_append_right
      apply List.mem_flatten.mpr
      refine ⟨genPages fuel (pfx ++ nm ++ ("/").data) tpfx gt ci.2, ?_, hpg⟩
      exact List.mem_map.mpr ⟨ci, hci, rfl⟩
  · intro fuel modern old mpfx opfx tpfx hc
    exact consume_ok _ [] hc
  · intro fuel modern old mpfx opfx tpfx good bad rest hsplit hc hbad
    unfold generate_temples_pages
    rw [hsplit]
    exact consume_error good [] bad rest hc hbad

def c9temple : Temple :=
  ⟨1, ("Храм Покрова").data, ("Село").data, ("1900").data, none, none,
   none, some [("Регион").data]⟩

def c9leaf : HierarchyIndex :=
  .mk false (("Регион").data) [(("Храм Покрова").data, c9temple)] []

def c9modern : HierarchyIndex :=
  .mk false (("Современная иерархия").data) [] [(("Регион").data, c9leaf)]

def c9old : HierarchyIndex := .mk true (("Старая иерархия").data) [] []

/-- C9 (witness): a concrete two-level modern hierarchy with one temple
and an empty old hierarchy generate pairwise distinct short page names,
and the command accepts them all. -/
theorem claim_C9_witness :
    generate_temples_pages 2 c9modern c9old [] [] [] =
      Except.ok (seenAfter [] (genPages 2 [] [] true c9modern
        ++ genPages 2 [] [] false c9old)) :=
  claim_C9.2.2.1 2 c9modern c9old [] [] [] (by decide)
